import Mathlib

/-!
# MappedList: a chunked list that grows at both ends

Shallow embedding of `MappedList/mappedlist.go`.

* Go's `int` is modelled by `Int`.  Every counter of the structure is bounded by
  the number of cells that were really allocated, far below `2^63`, so the
  arithmetic is the one of unbounded integers; `/` and `%` of Go truncate
  towards zero and are modelled by `Int.tdiv` and `Int.tmod`.
* A segment `*[arraySize]T` is a vector of `arraySize` cells; a nil pointer is
  `none`.  Every slot of the directory owns its segment (a fresh segment is made
  for each slot and the old directory is dropped after a copy), so the heap is
  modelled by value.
* A run-time panic is an `Except.error`.
* The goroutines of `MakeFromArray`, `Count` and `Map` each work on the segment
  (and the counter) of their own index, so they are run one after the other in
  the order of the slots.
* The work of a reallocation of the directory is counted in iterations of its
  copy loop, `MapSize + PrefixMapSize` of them (`allocNextCopies`,
  `allocPrevCopies`).
-/

namespace MappedList

/-- Run-time panics of Go that the code can raise. -/
inductive GoPanic where
  | indexOutOfRange
  | nilDereference
  | makeSliceLen
  deriving DecidableEq, Repr

/-- Size of a newly instantiated array. -/
def arraySize : Nat := 1024

/-- Divisor of the added growth. -/
def growthFactor : Int := 4

/-- A segment: the Go array `[arraySize]T`. -/
abbrev Segment (T : Type) : Type := Mathlib.Vector T arraySize

/-- The struct `Mappedlist[T]`. -/
structure Mappedlist (T : Type) where
  Data : List (Option (Segment T))
  MapSize : Int
  AllocSize : Int
  Length : Int
  PrefixMapSize : Int
  PrefixAllocSize : Int
  PrefixLength : Int

/-- The zero-initialised array of `GenerateInner`. -/
def GenerateInner {T : Type} [Inhabited T] : Segment T :=
  Mathlib.Vector.replicate arraySize default

/-- The Go expression `make([]E, n)`: `n` copies of the zero value `z`. -/
def makeSlice {E : Type} (z : E) (n : Int) : Except GoPanic (List E) :=
  if n < 0 then .error .makeSliceLen else .ok (List.replicate n.toNat z)

/-- The Go expression `s[i]` on a slice, read. -/
def sliceGet {E : Type} (s : List E) (i : Int) : Except GoPanic E :=
  if i < 0 then .error .indexOutOfRange
  else match s[i.toNat]? with
    | some e => .ok e
    | none => .error .indexOutOfRange

/-- The Go statement `s[i] = e` on a slice. -/
def sliceSet {E : Type} (s : List E) (i : Int) (e : E) : Except GoPanic (List E) :=
  if i < 0 then .error .indexOutOfRange
  else if i.toNat < s.length then .ok (s.set i.toNat e)
  else .error .indexOutOfRange

/-- The Go expression `p[j]` on a pointer to an array, read. -/
def segGet {T : Type} (p : Option (Segment T)) (j : Int) : Except GoPanic T :=
  match p with
  | none => .error .nilDereference
  | some seg =>
    if h : 0 ≤ j ∧ j.toNat < arraySize then .ok (seg.get ⟨j.toNat, h.2⟩)
    else .error .indexOutOfRange

/-- The Go statement `p[j] = e` on a pointer to an array: the array after it. -/
def segSet {T : Type} (p : Option (Segment T)) (j : Int) (e : T) :
    Except GoPanic (Segment T) :=
  match p with
  | none => .error .nilDereference
  | some seg =>
    if h : 0 ≤ j ∧ j.toNat < arraySize then .ok (seg.set ⟨j.toNat, h.2⟩ e)
    else .error .indexOutOfRange

/-- The function `Make`. -/
def Make {T : Type} [Inhabited T] : Mappedlist T :=
  { Data := [some GenerateInner]
    MapSize := 1
    AllocSize := arraySize
    Length := 0
    PrefixMapSize := 0
    PrefixAllocSize := 0
    PrefixLength := 0 }

/-- The inner loop of `MakeFromArray` for the segment `i`, from the offset `j`,
with `fuel` iterations left before `j` reaches `arraySize`. -/
def fillInner {T : Type} (arr : List T) (i : Nat) :
    Nat → Nat → Segment T → Segment T
  | 0, _, innerData => innerData
  | fuel + 1, j, innerData =>
    if h : j < arraySize then
      match arr[i * arraySize + j]? with
      | none => innerData
      | some v => fillInner arr i fuel (j + 1) (innerData.set ⟨j, h⟩ v)
    else innerData

/-- The function `MakeFromArray`. -/
def MakeFromArray {T : Type} [Inhabited T] (arr : List T) : Mappedlist T :=
  { Data := (List.range (arr.length / arraySize + 1)).map
      (fun i => some (fillInner arr i arraySize 0 GenerateInner))
    MapSize := (arr.length : Int).tdiv arraySize + 1
    AllocSize := ((arr.length : Int).tdiv arraySize + 1) * arraySize
    Length := arr.length
    PrefixMapSize := 0
    PrefixAllocSize := 0
    PrefixLength := 0 }

/-- The method `Get`. -/
def Get {T : Type} (list : Mappedlist T) (index : Int) : Except GoPanic T := do
  let index := index + (list.PrefixMapSize * arraySize - list.PrefixLength)
  let p ← sliceGet list.Data (index.tdiv arraySize)
  segGet p (index.tmod arraySize)

/-- The method `set`. -/
def set {T : Type} (list : Mappedlist T) (index : Int) (element : T) :
    Except GoPanic (Mappedlist T) := do
  let index := index + (list.PrefixMapSize * arraySize - list.PrefixLength)
  let p ← sliceGet list.Data (index.tdiv arraySize)
  let seg ← segSet p (index.tmod arraySize) element
  let data ← sliceSet list.Data (index.tdiv arraySize) (some seg)
  pure { list with Data := data }

/-- The loop `for i := 0; i < n; i++ { res[i] = list.Get(i) }` of `ToArray`. -/
def toArrayLoop {T : Type} (list : Mappedlist T) : Nat → Except GoPanic (List T)
  | 0 => pure []
  | n + 1 => do
    let res ← toArrayLoop list n
    let e ← Get list n
    pure (res ++ [e])

/-- The method `ToArray`. -/
def ToArray {T : Type} (list : Mappedlist T) : Except GoPanic (List T) :=
  if list.PrefixLength + list.Length < 0 then .error .makeSliceLen
  else toArrayLoop list (list.PrefixLength + list.Length).toNat

/-- The function `getNextSize`. -/
def getNextSize (size : Int) : Int :=
  if size > 1024 then size.tdiv growthFactor else size

/-- The copy loop of both allocators: `newData[i+shift] = data[i]` for
`i = 0 .. n-1`, in this order. -/
def copyLoop {E : Type} (data : List E) (shift : Int) :
    Nat → List E → Except GoPanic (List E)
  | 0, newData => pure newData
  | n + 1, newData => do
    let newData ← copyLoop data shift n newData
    let e ← sliceGet data n
    sliceSet newData (n + shift) e

/-- The method `allocNextInner`. -/
def allocNextInner {T : Type} [Inhabited T] (list : Mappedlist T) :
    Except GoPanic (Mappedlist T) := do
  let list ←
    if list.AllocSize = list.MapSize * arraySize then do
      let toAdd := getNextSize list.MapSize
      let newSize := toAdd + list.PrefixMapSize + list.MapSize
      let newData ← makeSlice none newSize
      let newData ← copyLoop list.Data 0 (list.MapSize + list.PrefixMapSize).toNat newData
      pure { list with Data := newData, MapSize := list.MapSize + toAdd }
    else pure list
  let data ← sliceSet list.Data (list.PrefixMapSize + list.AllocSize.tdiv arraySize)
    (some GenerateInner)
  pure { list with Data := data, AllocSize := list.AllocSize + arraySize }

/-- The method `allocPrevInner`. -/
def allocPrevInner {T : Type} [Inhabited T] (list : Mappedlist T) :
    Except GoPanic (Mappedlist T) := do
  let list ←
    if list.PrefixAllocSize = list.PrefixMapSize * arraySize then do
      let toAdd := getNextSize list.MapSize
      let newSize := toAdd + list.PrefixMapSize + list.MapSize
      let newData ← makeSlice none newSize
      let newData ← copyLoop list.Data toAdd (list.MapSize + list.PrefixMapSize).toNat newData
      pure { list with Data := newData, PrefixMapSize := list.PrefixMapSize + toAdd }
    else pure list
  let data ← sliceSet list.Data
    (list.PrefixMapSize - list.PrefixAllocSize.tdiv arraySize - 1) (some GenerateInner)
  pure { list with Data := data, PrefixAllocSize := list.PrefixAllocSize + arraySize }

/-- The worker of `Count` for the slot `index`: one `counts[index]++` for each
element of the segment on which `f` holds, from `fuel` elements before the end. -/
def countInner {T : Type} (f : T → Bool) (index : Nat) (innerList : Segment T) :
    Nat → List Int → Except GoPanic (List Int)
  | 0, counts => pure counts
  | n + 1, counts => do
    let counts ← countInner f index innerList n counts
    if h : n < arraySize then
      if f (innerList.get ⟨n, h⟩) then do
        let c ← sliceGet counts index
        sliceSet counts index (c + 1)
      else pure counts
    else pure counts

/-- The loop over the directory of `Count`, slot `index` first. -/
def countOuter {T : Type} (f : T → Bool) :
    List (Option (Segment T)) → Nat → List Int → Except GoPanic (List Int)
  | [], _, counts => pure counts
  | none :: rest, index, counts => countOuter f rest (index + 1) counts
  | some innerList :: rest, index, counts => do
    let counts ← countInner f index innerList arraySize counts
    countOuter f rest (index + 1) counts

/-- The method `Count`. -/
def Count {T : Type} (list : Mappedlist T) (f : T → Bool) : Except GoPanic Int := do
  let counts ← makeSlice (0 : Int) (list.MapSize + list.PrefixMapSize)
  let counts ← countOuter f list.Data 0 counts
  pure counts.sum

/-- The worker of `Map`: `innerList[i] = f(innerList[i])` for `i = 0 .. n-1`. -/
def mapInner {T : Type} (f : T → T) : Nat → Segment T → Segment T
  | 0, innerList => innerList
  | n + 1, innerList =>
    let innerList := mapInner f n innerList
    if h : n < arraySize then innerList.set ⟨n, h⟩ (f (innerList.get ⟨n, h⟩))
    else innerList

/-- The method `Map`. -/
def Map {T : Type} (list : Mappedlist T) (f : T → T) : Mappedlist T :=
  { list with Data := list.Data.map (Option.map (mapInner f arraySize)) }

/-- The method `Append`. -/
def Append {T : Type} [Inhabited T] (list : Mappedlist T) (element : T) :
    Except GoPanic (Mappedlist T) := do
  let list ← if list.Length = list.AllocSize then allocNextInner list else pure list
  let list ← set list (list.Length + list.PrefixLength) element
  pure { list with Length := list.Length + 1 }

/-- The method `Prepend`. -/
def Prepend {T : Type} [Inhabited T] (list : Mappedlist T) (element : T) :
    Except GoPanic (Mappedlist T) := do
  let list ←
    if list.PrefixLength = list.PrefixAllocSize then allocPrevInner list else pure list
  let list : Mappedlist T := { list with PrefixLength := list.PrefixLength + 1 }
  set list 0 element

/-- The content of the cell at the physical position `p` of a directory, when its
slot exists and holds a segment. -/
def cell {T : Type} (d : List (Option (Segment T))) (p : Nat) : Option T :=
  match d[p / arraySize]? with
  | some (some seg) => some (seg.get ⟨p % arraySize, Nat.mod_lt _ (by decide)⟩)
  | _ => none

/-- One insertion at an end of the list. -/
inductive Op (T : Type) where
  | append (x : T)
  | prepend (x : T)

/-- Applying one insertion. -/
def Op.apply {T : Type} [Inhabited T] (list : Mappedlist T) : Op T → Except GoPanic (Mappedlist T)
  | .append x => Append list x
  | .prepend x => Prepend list x

/-- Applying a sequence of insertions, the first one first. -/
def run {T : Type} [Inhabited T] : List (Op T) → Mappedlist T → Except GoPanic (Mappedlist T)
  | [], list => pure list
  | op :: ops, list => do
    let list ← op.apply list
    run ops list

/-- The lists that the public interface can build: `Make()` or `MakeFromArray`,
then any number of `Append`, `Prepend` and `Map` that returned. -/
inductive Reachable {T : Type} [Inhabited T] : Mappedlist T → Prop where
  | make : Reachable Make
  | makeFromArray (arr : List T) : Reachable (MakeFromArray arr)
  | append {l l' : Mappedlist T} (x : T) : Reachable l → Append l x = .ok l' → Reachable l'
  | prepend {l l' : Mappedlist T} (x : T) : Reachable l → Prepend l x = .ok l' → Reachable l'
  | map {l : Mappedlist T} (f : T → T) : Reachable l → Reachable (Map l f)

/-- The counters of a list, as natural numbers: directory sizes `pm` and `m`,
numbers `pk` and `k` of allocated segments, lengths `pl` and `len` of the prefix
and of the suffix; and the shape of the directory. -/
structure Rep {T : Type} (l : Mappedlist T) (pm pk pl m k len : Nat) : Prop where
  hPM : l.PrefixMapSize = pm
  hPA : l.PrefixAllocSize = pk * 1024
  hPL : l.PrefixLength = pl
  hM : l.MapSize = m
  hA : l.AllocSize = k * 1024
  hL : l.Length = len
  pl_le : pl ≤ pk * 1024
  pk_le : pk ≤ pm
  len_le : len ≤ k * 1024
  k_le : k ≤ m
  m_pos : 1 ≤ m
  data_len : l.Data.length = pm + m
  slot : ∀ j, (∃ seg, l.Data[j]? = some (some seg)) ↔ (pm ≤ j + pk ∧ j < pm + k)

/-- The content of the cell at the offset `c` from the boundary between the
prefix region and the suffix region (negative in the prefix region). -/
def cellAt {T : Type} (l : Mappedlist T) (c : Int) : Option T :=
  if l.PrefixMapSize * 1024 + c < 0 then none
  else cell l.Data (l.PrefixMapSize * 1024 + c).toNat

/-- The invariant of the structure: the counters and the directory have a
representation. -/
def WF {T : Type} (l : Mappedlist T) : Prop :=
  ∃ pm pk pl m k len : Nat, Rep l pm pk pl m k len

/-- The cells of the logical indices `0 .. n-1`, in this order. -/
def liveList {T : Type} (l : Mappedlist T) (n : Nat) : List T :=
  (List.range n).filterMap (fun i : Nat => cellAt l ((i : Int) - l.PrefixLength))

/-- The values given to `Append`, in the order of the calls. -/
def appended {T : Type} : List (Op T) → List T
  | [] => []
  | .append x :: ops => x :: appended ops
  | .prepend _ :: ops => appended ops

/-- The values given to `Prepend`, in the order of the calls. -/
def prepended {T : Type} : List (Op T) → List T
  | [] => []
  | .append _ :: ops => prepended ops
  | .prepend x :: ops => x :: prepended ops

/-- The function `getNextSize` on a natural number. -/
def nextSize (m : Nat) : Nat := if m > 1024 then m / 4 else m

/-- Number of the positions `a ≤ q < a + n` on which `g` holds. -/
def countRange (g : Nat → Bool) (a : Nat) : Nat → Nat
  | 0 => 0
  | n + 1 => countRange g a n + (if g (a + n) then 1 else 0)

/-- The predicate `f` on the cell `j` of a segment. -/
def segPred {T : Type} (f : T → Bool) (seg : Segment T) (j : Nat) : Bool :=
  if h : j < arraySize then f (seg.get ⟨j, h⟩) else false

/-- Number of the cells of the allocated segments of a directory on which `f`
holds. -/
def dirCount {T : Type} (f : T → Bool) : List (Option (Segment T)) → Nat
  | [] => 0
  | none :: d => dirCount f d
  | some seg :: d => countRange (segPred f seg) 0 arraySize + dirCount f d

/-- Number of the cells at the offsets `a ≤ c < a + n` from the boundary that are
allocated and on which `f` holds. -/
def countAt {T : Type} (l : Mappedlist T) (f : T → Bool) (a : Int) (n : Nat) : Nat :=
  countRange (fun j => (cellAt l (a + (j : Nat))).any f) 0 n

/-- Every allocated cell outside the logical range holds the zero value. -/
def Clean {T : Type} [Inhabited T] (l : Mappedlist T) : Prop :=
  ∀ c : Int, (c < -l.PrefixLength ∨ l.Length ≤ c) →
    cellAt l c = none ∨ cellAt l c = some default

/-- The predicate of the scenario of the specification: `x % 2 == 0`. -/
def isEven (x : Int) : Bool := x % 2 == 0

/-- Number of the slots of a directory that hold a segment. -/
def allocated {T : Type} (d : List (Option (Segment T))) : Nat :=
  d.countP Option.isSome

/-- The lists built from `Make()` or `MakeFromArray` by `Append` and `Prepend`
only, without `Map`. -/
inductive Built {T : Type} [Inhabited T] : Mappedlist T → Prop where
  | make : Built Make
  | makeFromArray (arr : List T) : Built (MakeFromArray arr)
  | append {l l' : Mappedlist T} (x : T) : Built l → Append l x = .ok l' → Built l'
  | prepend {l l' : Mappedlist T} (x : T) : Built l → Prepend l x = .ok l' → Built l'

/-- The zero value of the struct `Mappedlist[T]`: a nil directory and every
counter 0. -/
def zeroValue {T : Type} : Mappedlist T :=
  { Data := []
    MapSize := 0
    AllocSize := 0
    Length := 0
    PrefixMapSize := 0
    PrefixAllocSize := 0
    PrefixLength := 0 }

/-- Number of iterations of the copy loop that `allocNextInner` runs on `list`:
`MapSize + PrefixMapSize` when it reallocates the directory, none otherwise. -/
def allocNextCopies {T : Type} (list : Mappedlist T) : Nat :=
  if list.AllocSize = list.MapSize * arraySize then
    (list.MapSize + list.PrefixMapSize).toNat
  else 0

/-- Number of iterations of the copy loop that `allocPrevInner` runs on `list`:
`MapSize + PrefixMapSize` when it reallocates the directory, none otherwise. -/
def allocPrevCopies {T : Type} (list : Mappedlist T) : Nat :=
  if list.PrefixAllocSize = list.PrefixMapSize * arraySize then
    (list.MapSize + list.PrefixMapSize).toNat
  else 0

/-- Number of directory slots that one insertion copies on `list`: those of the
allocator, when the insertion calls it. -/
def Op.copies {T : Type} (list : Mappedlist T) : Op T → Nat
  | .append _ => if list.Length = list.AllocSize then allocNextCopies list else 0
  | .prepend _ =>
    if list.PrefixLength = list.PrefixAllocSize then allocPrevCopies list else 0

/-- Number of directory slots copied over a sequence of insertions, the first one
first. -/
def runCopies {T : Type} [Inhabited T] :
    List (Op T) → Mappedlist T → Except GoPanic Nat
  | [], _ => pure 0
  | op :: ops, list => do
    let next ← op.apply list
    let c ← runCopies ops next
    pure (op.copies list + c)

/-! ## The translation of indices and the slices -/

theorem arraySize_eq : arraySize = 1024 := rfl

theorem sliceGet_nat {E : Type} (s : List E) (k : Nat) (e : E) (h : s[k]? = some e) :
    sliceGet s (k : Int) = .ok e := by
  have h0 : ¬ ((k : Int) < 0) := by omega
  simp [sliceGet, h, h0]

theorem sliceGet_nat_none {E : Type} (s : List E) (k : Nat) (h : s[k]? = none) :
    sliceGet s (k : Int) = .error .indexOutOfRange := by
  have h0 : ¬ ((k : Int) < 0) := by omega
  simp [sliceGet, h, h0]

theorem sliceSet_nat {E : Type} (s : List E) (k : Nat) (e : E) (h : k < s.length) :
    sliceSet s (k : Int) e = .ok (s.set k e) := by
  have h0 : ¬ ((k : Int) < 0) := by omega
  simp [sliceSet, h, h0]

theorem segGet_nat {T : Type} (seg : Segment T) (j : Nat) (h : j < arraySize) :
    segGet (some seg) (j : Int) = .ok (seg.get ⟨j, h⟩) := by
  simp [segGet, h]

theorem segSet_nat {T : Type} (seg : Segment T) (j : Nat) (h : j < arraySize) (e : T) :
    segSet (some seg) (j : Int) e = .ok (seg.set ⟨j, h⟩ e) := by
  simp [segSet, h]

theorem tdiv_nat (p : Nat) : (p : Int).tdiv (arraySize : Int) = ((p / arraySize : Nat) : Int) := by
  rw [Int.tdiv_eq_ediv (by omega) (by omega)]; simp

theorem tmod_nat (p : Nat) : (p : Int).tmod (arraySize : Int) = ((p % arraySize : Nat) : Int) := by
  rw [Int.tmod_eq_emod (by omega) (by omega)]; simp

/-- Reading at a non-negative translated position is reading the cell. -/
theorem Get_nat {T : Type} (l : Mappedlist T) (i : Int) (p : Nat)
    (hp : i + (l.PrefixMapSize * arraySize - l.PrefixLength) = p) (v : T) :
    Get l i = .ok v ↔ cell l.Data p = some v := by
  unfold Get cell
  simp only [hp, tdiv_nat, tmod_nat]
  rcases h : l.Data[p / arraySize]? with _ | (_ | seg)
  · rw [sliceGet_nat_none _ _ h]; simp [bind, Except.bind]
  · rw [sliceGet_nat _ _ _ h]; simp [bind, Except.bind, segGet]
  · rw [sliceGet_nat _ _ _ h]
    simp only [bind, Except.bind]
    rw [segGet_nat _ _ (Nat.mod_lt _ (by decide))]
    simp

theorem Get_neg {T : Type} (l : Mappedlist T) (i : Int)
    (hp : i + (l.PrefixMapSize * arraySize - l.PrefixLength) < 0) :
    ∃ e, Get l i = .error e := by
  unfold Get
  generalize i + (l.PrefixMapSize * arraySize - l.PrefixLength) = a at hp
  simp only [bind, Except.bind]
  rcases h : sliceGet l.Data (a.tdiv arraySize) with e | (_ | seg)
  · exact ⟨e, rfl⟩
  · exact ⟨_, rfl⟩
  · have h5 : a.tmod arraySize < 0 := by
      have h1 : ¬ a.tdiv arraySize < 0 := by
        intro h1; simp [sliceGet, h1] at h
      have h3 := Int.tmod_add_tdiv a arraySize
      have h4 : a.tdiv arraySize ≤ 0 := by
        have h7 := Int.tdiv_nonneg (show 0 ≤ -a by omega) (show (0:Int) ≤ arraySize by decide)
        rw [Int.neg_tdiv] at h7; omega
      have h6 : a.tdiv arraySize = 0 := by omega
      rw [h6] at h3; simp at h3; omega
    refine ⟨.indexOutOfRange, ?_⟩
    simp only [segGet]
    rw [dif_neg (by omega)]

/-- The method `set` at a non-negative translated position whose slot holds a
segment. -/
theorem set_nat {T : Type} (l : Mappedlist T) (i : Int) (p : Nat) (x : T) (seg : Segment T)
    (hp : i + (l.PrefixMapSize * arraySize - l.PrefixLength) = p)
    (hseg : l.Data[p / arraySize]? = some (some seg)) :
    set l i x = .ok { l with
      Data := l.Data.set (p / arraySize) (some (seg.set ⟨p % arraySize, Nat.mod_lt _ (by decide)⟩ x)) } := by
  unfold set
  simp only [hp, tdiv_nat, tmod_nat]
  rw [sliceGet_nat _ _ _ hseg]
  simp only [bind, Except.bind]
  rw [segSet_nat _ _ (Nat.mod_lt _ (by decide))]
  have hlt : p / arraySize < l.Data.length := by
    rcases Nat.lt_or_ge (p / arraySize) l.Data.length with h | h
    · exact h
    · rw [List.getElem?_eq_none h] at hseg; cases hseg
  simp only []
  rw [sliceSet_nat _ _ _ hlt]
  rfl

theorem cell_some_iff {T : Type} (d : List (Option (Segment T))) (q : Nat) :
    (cell d q).isSome ↔ ∃ seg, d[q / arraySize]? = some (some seg) := by
  unfold cell
  rcases h : d[q / arraySize]? with _ | (_ | seg) <;> simp

/-- Writing one cell changes this cell only. -/
theorem cell_set {T : Type} (d : List (Option (Segment T))) (p : Nat) (x : T)
    (seg : Segment T) (hseg : d[p / arraySize]? = some (some seg)) (q : Nat) :
    cell (d.set (p / arraySize) (some (seg.set ⟨p % arraySize, Nat.mod_lt _ (by decide)⟩ x))) q
      = if q = p then some x else cell d q := by
  have hlt : p / arraySize < d.length := by
    rcases Nat.lt_or_ge (p / arraySize) d.length with h | h
    · exact h
    · rw [List.getElem?_eq_none h] at hseg; cases hseg
  unfold cell
  by_cases hs : q / arraySize = p / arraySize
  · rw [hs, List.getElem?_set_self hlt, hseg]
    simp only [Mathlib.Vector.get_set_eq_if, Fin.mk.injEq]
    by_cases hq : q = p
    · simp [hq]
    · have : ¬ (p % arraySize = q % arraySize) := by
        intro hm
        apply hq
        rw [← Nat.div_add_mod q arraySize, ← Nat.div_add_mod p arraySize, hs, hm]
      simp [hq, this]
  · have hq : q ≠ p := fun h => hs (by rw [h])
    rw [List.getElem?_set_ne (Ne.symm hs)]
    simp [hq]

/-- Installing a fresh segment in a slot. -/
theorem cell_fresh {T : Type} (d : List (Option (Segment T))) (j : Nat) (seg : Segment T)
    (hj : j < d.length) (q : Nat) :
    cell (d.set j (some seg)) q
      = if q / arraySize = j then some (seg.get ⟨q % arraySize, Nat.mod_lt _ (by decide)⟩)
        else cell d q := by
  unfold cell
  by_cases hs : q / arraySize = j
  · rw [hs, List.getElem?_set_self hj]; simp
  · rw [List.getElem?_set_ne (Ne.symm hs)]; simp [hs]

/-- The copy loop writes the first `n` slots of `data` at the offset `t`. -/
theorem copyLoop_spec {E : Type} (data : List E) (t : Nat) :
    ∀ (n : Nat) (newData : List E), n ≤ data.length → t + n ≤ newData.length →
      ∃ r, copyLoop data (t : Int) n newData = .ok r ∧ r.length = newData.length ∧
        ∀ j, r[j]? = if t ≤ j ∧ j < t + n then data[j - t]? else newData[j]? := by
  intro n
  induction n with
  | zero =>
    intro newData _ _
    refine ⟨newData, rfl, rfl, ?_⟩
    intro j
    rw [if_neg (by omega)]
  | succ n ih =>
    intro newData h1 h2
    obtain ⟨r, hr, hlen, hget⟩ := ih newData (by omega) (by omega)
    have hn : n < data.length := by omega
    have he : data[n]? = some data[n] := List.getElem?_eq_getElem hn
    refine ⟨r.set (n + t) data[n], ?_, by simp [hlen], ?_⟩
    · simp only [copyLoop, hr, bind, Except.bind]
      rw [sliceGet_nat _ _ _ he]
      simp only []
      have hc : ((n : Int) + (t : Int)) = ((n + t : Nat) : Int) := by push_cast; rfl
      rw [hc, sliceSet_nat _ _ _ (by omega)]
    · intro j
      by_cases hj : n + t = j
      · subst hj
        rw [List.getElem?_set_self (by omega), if_pos (by omega)]
        simp [he]
      · rw [List.getElem?_set_ne hj, hget j]
        by_cases h3 : t ≤ j ∧ j < t + n
        · rw [if_pos h3, if_pos (by omega)]
        · rw [if_neg h3, if_neg (by omega)]

/-- The copy of `allocNextInner`: the old directory, then the new empty slots. -/
theorem copyLoop_next {E : Type} (data : List E) (z : E) (t : Nat) :
    copyLoop data 0 data.length (List.replicate (data.length + t) z)
      = .ok (data ++ List.replicate t z) := by
  obtain ⟨r, hr, hlen, hget⟩ := copyLoop_spec data 0 data.length
    (List.replicate (data.length + t) z) (le_refl _) (by simp)
  have : r = data ++ List.replicate t z := by
    apply List.ext_getElem?
    intro j
    rw [hget j, List.getElem?_append, List.getElem?_replicate, List.getElem?_replicate]
    by_cases h : j < data.length
    · simp [h]
    · simp only [h, if_false, Nat.zero_le, true_and, Nat.zero_add]
      by_cases h2 : j < data.length + t
      · rw [if_pos h2, if_pos (by omega)]
      · rw [if_neg h2, if_neg (by omega)]
  rw [← this]; exact_mod_cast hr

/-- The copy of `allocPrevInner`: the new empty slots, then the old directory. -/
theorem copyLoop_prev {E : Type} (data : List E) (z : E) (t : Nat) :
    copyLoop data (t : Int) data.length (List.replicate (t + data.length) z)
      = .ok (List.replicate t z ++ data) := by
  obtain ⟨r, hr, hlen, hget⟩ := copyLoop_spec data t data.length
    (List.replicate (t + data.length) z) (le_refl _) (by simp)
  have : r = List.replicate t z ++ data := by
    apply List.ext_getElem?
    intro j
    rw [hget j, List.getElem?_append, List.getElem?_replicate, List.getElem?_replicate]
    simp only [List.length_replicate]
    by_cases h : j < t
    · rw [if_neg (by omega), if_pos (by omega), if_pos h, if_pos h]
    · rw [if_neg h]
      by_cases h2 : j < t + data.length
      · rw [if_pos (by omega)]
      · rw [if_neg (by omega), if_neg h2]
        exact (List.getElem?_eq_none (by omega)).symm
  rw [← this]; exact hr


theorem arraySize_cast : (arraySize : Int) = 1024 := rfl

theorem div_arraySize (q : Nat) : q / arraySize = q / 1024 := rfl

theorem mod_arraySize (q : Nat) : q % arraySize = q % 1024 := rfl

/-- Reading through `Get` is reading the cell at the offset `index - PrefixLength`. -/
theorem Get_eq_cellAt {T : Type} (l : Mappedlist T) (i : Int) (v : T) :
    Get l i = .ok v ↔ cellAt l (i - l.PrefixLength) = some v := by
  unfold cellAt
  by_cases h : l.PrefixMapSize * 1024 + (i - l.PrefixLength) < 0
  · rw [if_pos h]
    obtain ⟨e, he⟩ := Get_neg l i (by rw [arraySize_cast]; omega)
    simp [he]
  · rw [if_neg h]
    exact Get_nat l i _ (by rw [arraySize_cast]; omega) v

theorem Get_error_iff {T : Type} (l : Mappedlist T) (i : Int) :
    (∃ e, Get l i = .error e) ↔ cellAt l (i - l.PrefixLength) = none := by
  rcases h : Get l i with e | v
  · have : ∀ v, cellAt l (i - l.PrefixLength) ≠ some v := by
      intro v hv; rw [← Get_eq_cellAt, h] at hv; cases hv
    constructor
    · intro _
      rcases h2 : cellAt l (i - l.PrefixLength) with _ | v
      · rfl
      · exact absurd h2 (this v)
    · intro _; exact ⟨e, rfl⟩
  · have := (Get_eq_cellAt l i v).1 h
    simp [this]

/-- The allocated cells are those of the allocated segments. -/
theorem Rep.cellAt_isSome {T : Type} {l : Mappedlist T} {pm pk pl m k len : Nat}
    (h : Rep l pm pk pl m k len) (c : Int) :
    (cellAt l c).isSome ↔ (-(pk * 1024 : Int) ≤ c ∧ c < k * 1024) := by
  unfold cellAt
  rw [h.hPM]
  by_cases h0 : (pm : Int) * 1024 + c < 0
  · rw [if_pos h0]
    have := h.pk_le
    simp only [Option.isSome_none, Bool.false_eq_true, false_iff]
    omega
  · rw [if_neg h0, cell_some_iff, h.slot, div_arraySize]
    omega

/-- A list with the counters of `l` and a directory of the same shape has the
representation of `l`. -/
theorem Rep.of_data {T : Type} {l : Mappedlist T} {pm pk pl m k len : Nat}
    (h : Rep l pm pk pl m k len) (d : List (Option (Segment T)))
    (hlen : d.length = l.Data.length)
    (hslot : ∀ j : Nat, (∃ seg, d[j]? = some (some seg)) ↔ ∃ seg, l.Data[j]? = some (some seg)) :
    Rep { l with Data := d } pm pk pl m k len :=
  { hPM := h.hPM, hPA := h.hPA, hPL := h.hPL, hM := h.hM, hA := h.hA, hL := h.hL,
    pl_le := h.pl_le, pk_le := h.pk_le, len_le := h.len_le, k_le := h.k_le, m_pos := h.m_pos,
    data_len := by rw [← h.data_len]; exact hlen
    slot := fun j => (hslot j).trans (h.slot j) }

/-- The method `set` on an allocated cell: it returns, keeps the counters and the
shape of the directory, and changes this cell only. -/
theorem set_spec {T : Type} (l : Mappedlist T) (i : Int) (x : T)
    (hc : (cellAt l (i - l.PrefixLength)).isSome) :
    ∃ d, set l i x = .ok { l with Data := d } ∧ d.length = l.Data.length ∧
      (∀ j : Nat, (∃ seg, d[j]? = some (some seg)) ↔ ∃ seg, l.Data[j]? = some (some seg)) ∧
      ∀ c, cellAt { l with Data := d } c = if c = i - l.PrefixLength then some x else cellAt l c := by
  unfold cellAt at hc
  by_cases h0 : l.PrefixMapSize * 1024 + (i - l.PrefixLength) < 0
  · rw [if_pos h0] at hc; cases hc
  rw [if_neg h0] at hc
  obtain ⟨seg, hseg⟩ := (cell_some_iff _ _).1 hc
  have hp : i + (l.PrefixMapSize * arraySize - l.PrefixLength)
      = ((l.PrefixMapSize * 1024 + (i - l.PrefixLength)).toNat : Nat) := by
    rw [arraySize_cast]; omega
  generalize (l.PrefixMapSize * 1024 + (i - l.PrefixLength)).toNat = p at hp hseg
  have hlt : p / arraySize < l.Data.length := by
    rcases Nat.lt_or_ge (p / arraySize) l.Data.length with h | h
    · exact h
    · rw [List.getElem?_eq_none h] at hseg; cases hseg
  have hp2 : (p : Int) = l.PrefixMapSize * 1024 + (i - l.PrefixLength) := by
    rw [arraySize_cast] at hp; omega
  refine ⟨_, set_nat l i p x seg hp hseg, by simp, ?_, ?_⟩
  · intro j
    by_cases hj : p / arraySize = j
    · subst hj
      rw [List.getElem?_set_self hlt, hseg]
      simp
    · rw [List.getElem?_set_ne hj]
  · intro c
    unfold cellAt
    simp only []
    by_cases h1 : l.PrefixMapSize * 1024 + c < 0
    · rw [if_pos h1, if_pos h1, if_neg (by omega)]
    · rw [if_neg h1, if_neg h1, cell_set _ _ _ _ hseg]
      by_cases h2 : c = i - l.PrefixLength
      · rw [if_pos h2, if_pos (by omega)]
      · rw [if_neg h2, if_neg (by omega)]

/-! ## The growth policy and the two allocators -/

theorem getNextSize_nat (m : Nat) :
    getNextSize (m : Int) = ((if m > 1024 then m / 4 else m : Nat) : Int) := by
  unfold getNextSize growthFactor
  by_cases h : m > 1024
  · rw [if_pos (by omega), if_pos h, Int.tdiv_eq_ediv (by omega) (by omega)]
    simp
  · rw [if_neg (by omega), if_neg h]

theorem cell_append_none {T : Type} (d : List (Option (Segment T))) (t q : Nat) :
    cell (d ++ List.replicate t none) q = cell d q := by
  unfold cell
  rw [List.getElem?_append]
  by_cases h : q / arraySize < d.length
  · rw [if_pos h]
  · rw [if_neg h, List.getElem?_eq_none (Nat.le_of_not_lt h), List.getElem?_replicate]
    split_ifs <;> rfl

theorem cell_prepend_none {T : Type} (d : List (Option (Segment T))) (t q : Nat) :
    cell (List.replicate t none ++ d) q = if q < t * 1024 then none else cell d (q - t * 1024) := by
  unfold cell
  rw [List.getElem?_append, List.length_replicate, List.getElem?_replicate]
  have e1 := div_arraySize q
  by_cases h : q < t * 1024
  · rw [if_pos (by omega), if_pos (by omega), if_pos h]
  · rw [if_neg (by omega), if_neg h]
    have e2 : (q - t * 1024) / arraySize = q / arraySize - t := by
      have := div_arraySize (q - t * 1024); omega
    have e3 : (q - t * 1024) % arraySize = q % arraySize := by
      have := mod_arraySize (q - t * 1024); have := mod_arraySize q; omega
    rw [e2]
    rcases d[q / arraySize - t]? with _ | (_ | seg)
    · rfl
    · rfl
    · simp only [Option.some.injEq]
      congr 2
      exact e3.symm

theorem getElem?_append_none_some {E : Type} (d : List (Option E)) (t j : Nat) (e : E) :
    (d ++ List.replicate t none)[j]? = some (some e) ↔ d[j]? = some (some e) := by
  rw [List.getElem?_append]
  by_cases h : j < d.length
  · rw [if_pos h]
  · rw [if_neg h, List.getElem?_eq_none (Nat.le_of_not_lt h), List.getElem?_replicate]
    split_ifs <;> simp

theorem getElem?_prepend_none_some {E : Type} (d : List (Option E)) (t j : Nat) (e : E) :
    (List.replicate t none ++ d)[j]? = some (some e) ↔ t ≤ j ∧ d[j - t]? = some (some e) := by
  rw [List.getElem?_append, List.length_replicate, List.getElem?_replicate]
  by_cases h : j < t
  · rw [if_pos h, if_pos h]
    constructor
    · intro h2; cases h2
    · intro h2; omega
  · rw [if_neg h]
    constructor
    · intro h2; exact ⟨by omega, h2⟩
    · intro h2; exact h2.2

/-- The last step of `allocNextInner`: a fresh segment in the first empty slot of
the suffix region. -/
theorem allocNext_install {T : Type} [Inhabited T] (l : Mappedlist T)
    {pm pk pl m k len : Nat} (h : Rep l pm pk pl m k len) (hk : k < m) :
    sliceSet l.Data (l.PrefixMapSize + l.AllocSize.tdiv arraySize) (some GenerateInner)
        = .ok (l.Data.set (pm + k) (some GenerateInner)) ∧
      Rep { l with
          Data := l.Data.set (pm + k) (some GenerateInner),
          AllocSize := l.AllocSize + arraySize } pm pk pl m (k + 1) len ∧
      ∀ c : Int, cellAt { l with
          Data := l.Data.set (pm + k) (some GenerateInner),
          AllocSize := l.AllocSize + arraySize } c
        = if (k : Int) * 1024 ≤ c ∧ c < (k + 1) * 1024 then some default else cellAt l c := by
  have hidx : l.PrefixMapSize + l.AllocSize.tdiv arraySize = ((pm + k : Nat) : Int) := by
    rw [h.hPM, h.hA, arraySize_cast, Int.tdiv_eq_ediv (by omega) (by omega)]
    omega
  have hlt : pm + k < l.Data.length := by rw [h.data_len]; omega
  refine ⟨by rw [hidx, sliceSet_nat _ _ _ hlt], ?_, ?_⟩
  · refine ⟨h.hPM, h.hPA, h.hPL, h.hM, ?_, h.hL, h.pl_le, h.pk_le, ?_, ?_, h.m_pos, ?_, ?_⟩
    · show l.AllocSize + arraySize = ((k + 1 : Nat) : Int) * 1024
      rw [h.hA, arraySize_cast]; push_cast; ring
    · have := h.len_le; omega
    · omega
    · simp [h.data_len]
    · intro j
      show (∃ seg, (l.Data.set (pm + k) (some GenerateInner))[j]? = some (some seg)) ↔ _
      by_cases hj : pm + k = j
      · subst hj
        rw [List.getElem?_set_self hlt]
        have := h.pk_le
        simp
        omega
      · rw [List.getElem?_set_ne hj, h.slot j]
        omega
  · intro c
    unfold cellAt
    show (if l.PrefixMapSize * 1024 + c < 0 then none
      else cell (l.Data.set (pm + k) (some GenerateInner)) (l.PrefixMapSize * 1024 + c).toNat) = _
    rw [h.hPM]
    by_cases h0 : (pm : Int) * 1024 + c < 0
    · rw [if_pos h0, if_pos h0, if_neg (by omega)]
    · rw [if_neg h0, if_neg h0, cell_fresh _ _ _ hlt]
      have e1 := div_arraySize ((pm : Int) * 1024 + c).toNat
      by_cases h1 : (k : Int) * 1024 ≤ c ∧ c < (k + 1) * 1024
      · rw [if_pos h1, if_pos (by omega)]
        simp [GenerateInner]
      · rw [if_neg h1, if_neg (by omega)]

/-- The method `allocNextInner` returns, adds one segment to the suffix region and
keeps every other cell. -/
theorem allocNextInner_spec {T : Type} [Inhabited T] (l : Mappedlist T)
    {pm pk pl m k len : Nat} (h : Rep l pm pk pl m k len) :
    ∃ l' m', allocNextInner l = .ok l' ∧ Rep l' pm pk pl m' (k + 1) len ∧
      m' = m + (if k = m then nextSize m else 0) ∧
      ∀ c : Int, cellAt l' c
        = if (k : Int) * 1024 ≤ c ∧ c < (k + 1) * 1024 then some default else cellAt l c := by
  by_cases hc : l.AllocSize = l.MapSize * arraySize
  · have hkm : k = m := by
      rw [h.hA, h.hM, arraySize_cast] at hc; omega
    obtain ⟨t, ht, htpos, htd⟩ :
        ∃ t : Nat, getNextSize l.MapSize = t ∧ 1 ≤ t ∧ t = nextSize m := by
      refine ⟨nextSize m, by rw [h.hM, getNextSize_nat]; rfl, ?_, rfl⟩
      have := h.m_pos
      unfold nextSize
      split_ifs <;> omega
    have hms : makeSlice (none : Option (Segment T))
        (getNextSize l.MapSize + l.PrefixMapSize + l.MapSize)
        = .ok (List.replicate (l.Data.length + t) none) := by
      unfold makeSlice
      rw [ht, h.hPM, h.hM, if_neg (by omega), h.data_len]
      congr 2; omega
    have hcl : copyLoop l.Data 0 (l.MapSize + l.PrefixMapSize).toNat
        (List.replicate (l.Data.length + t) none) = .ok (l.Data ++ List.replicate t none) := by
      have : (l.MapSize + l.PrefixMapSize).toNat = l.Data.length := by
        rw [h.hPM, h.hM, h.data_len]; omega
      rw [this]; exact copyLoop_next _ _ _
    have h1 : Rep { l with Data := l.Data ++ List.replicate t none,
                           MapSize := l.MapSize + getNextSize l.MapSize }
        pm pk pl (m + t) k len := by
      refine ⟨h.hPM, h.hPA, h.hPL, ?_, h.hA, h.hL, h.pl_le, h.pk_le, h.len_le, ?_, ?_, ?_, ?_⟩
      · show l.MapSize + getNextSize l.MapSize = ((m + t : Nat) : Int)
        rw [ht, h.hM]; push_cast; rfl
      · have := h.k_le; omega
      · omega
      · simp [h.data_len]; omega
      · intro j
        show (∃ seg, (l.Data ++ List.replicate t none)[j]? = some (some seg)) ↔ _
        simp only [getElem?_append_none_some]
        exact h.slot j
    obtain ⟨e1, e2, e3⟩ := allocNext_install _ h1 (by omega)
    refine ⟨_, m + t, ?_, e2, by rw [if_pos hkm, htd], ?_⟩
    · simp only [allocNextInner, if_pos hc, hms, hcl, bind, Except.bind, pure, Except.pure]
      rw [e1]
    · intro c
      rw [e3 c]
      unfold cellAt
      simp only [cell_append_none]
  · have hkm : k ≠ m := by
      intro e; apply hc; rw [h.hA, h.hM, arraySize_cast, e]
    obtain ⟨e1, e2, e3⟩ := allocNext_install l h (by
      have := h.k_le
      omega)
    refine ⟨_, m, ?_, e2, by rw [if_neg hkm]; rfl, e3⟩
    simp only [allocNextInner, if_neg hc, bind, Except.bind, pure, Except.pure]
    rw [e1]

/-- The last step of `allocPrevInner`: a fresh segment in the slot before the
first segment of the prefix region. -/
theorem allocPrev_install {T : Type} [Inhabited T] (l : Mappedlist T)
    {pm pk pl m k len : Nat} (h : Rep l pm pk pl m k len) (hk : pk < pm) :
    sliceSet l.Data (l.PrefixMapSize - l.PrefixAllocSize.tdiv arraySize - 1)
        (some GenerateInner) = .ok (l.Data.set (pm - pk - 1) (some GenerateInner)) ∧
      Rep { l with
          Data := l.Data.set (pm - pk - 1) (some GenerateInner),
          PrefixAllocSize := l.PrefixAllocSize + arraySize } pm (pk + 1) pl m k len ∧
      ∀ c : Int, cellAt { l with
          Data := l.Data.set (pm - pk - 1) (some GenerateInner),
          PrefixAllocSize := l.PrefixAllocSize + arraySize } c
        = if -((pk : Int) + 1) * 1024 ≤ c ∧ c < -(pk : Int) * 1024 then some default
          else cellAt l c := by
  have hidx : l.PrefixMapSize - l.PrefixAllocSize.tdiv arraySize - 1
      = ((pm - pk - 1 : Nat) : Int) := by
    rw [h.hPM, h.hPA, arraySize_cast, Int.tdiv_eq_ediv (by omega) (by omega)]
    omega
  have hlt : pm - pk - 1 < l.Data.length := by rw [h.data_len]; omega
  refine ⟨by rw [hidx, sliceSet_nat _ _ _ hlt], ?_, ?_⟩
  · refine ⟨h.hPM, ?_, h.hPL, h.hM, h.hA, h.hL, ?_, ?_, h.len_le, h.k_le, h.m_pos, ?_, ?_⟩
    · show l.PrefixAllocSize + arraySize = ((pk + 1 : Nat) : Int) * 1024
      rw [h.hPA, arraySize_cast]; push_cast; ring
    · have := h.pl_le; omega
    · omega
    · simp [h.data_len]
    · intro j
      show (∃ seg, (l.Data.set (pm - pk - 1) (some GenerateInner))[j]? = some (some seg)) ↔ _
      by_cases hj : pm - pk - 1 = j
      · subst hj
        rw [List.getElem?_set_self hlt]
        simp
        omega
      · rw [List.getElem?_set_ne hj, h.slot j]
        omega
  · intro c
    unfold cellAt
    show (if l.PrefixMapSize * 1024 + c < 0 then none
      else cell (l.Data.set (pm - pk - 1) (some GenerateInner))
        (l.PrefixMapSize * 1024 + c).toNat) = _
    rw [h.hPM]
    by_cases h0 : (pm : Int) * 1024 + c < 0
    · rw [if_pos h0, if_pos h0, if_neg (by omega)]
    · rw [if_neg h0, if_neg h0, cell_fresh _ _ _ hlt]
      have e1 := div_arraySize ((pm : Int) * 1024 + c).toNat
      by_cases h1 : -((pk : Int) + 1) * 1024 ≤ c ∧ c < -(pk : Int) * 1024
      · rw [if_pos h1, if_pos (by omega)]
        simp [GenerateInner]
      · rw [if_neg h1, if_neg (by omega)]

/-- The method `allocPrevInner` returns, adds one segment to the prefix region and
keeps every other cell (at the same offset from the boundary). -/
theorem allocPrevInner_spec {T : Type} [Inhabited T] (l : Mappedlist T)
    {pm pk pl m k len : Nat} (h : Rep l pm pk pl m k len) :
    ∃ l' pm', allocPrevInner l = .ok l' ∧ Rep l' pm' (pk + 1) pl m k len ∧
      pm' = pm + (if pk = pm then nextSize m else 0) ∧
      ∀ c : Int, cellAt l' c
        = if -((pk : Int) + 1) * 1024 ≤ c ∧ c < -(pk : Int) * 1024 then some default
          else cellAt l c := by
  by_cases hc : l.PrefixAllocSize = l.PrefixMapSize * arraySize
  · have hkm : pk = pm := by
      rw [h.hPA, h.hPM, arraySize_cast] at hc; omega
    obtain ⟨t, ht, htpos, htd⟩ :
        ∃ t : Nat, getNextSize l.MapSize = t ∧ 1 ≤ t ∧ t = nextSize m := by
      refine ⟨nextSize m, by rw [h.hM, getNextSize_nat]; rfl, ?_, rfl⟩
      have := h.m_pos
      unfold nextSize
      split_ifs <;> omega
    have hms : makeSlice (none : Option (Segment T))
        (getNextSize l.MapSize + l.PrefixMapSize + l.MapSize)
        = .ok (List.replicate (t + l.Data.length) none) := by
      unfold makeSlice
      rw [ht, h.hPM, h.hM, if_neg (by omega), h.data_len]
      congr 2; omega
    have hcl : copyLoop l.Data (getNextSize l.MapSize) (l.MapSize + l.PrefixMapSize).toNat
        (List.replicate (t + l.Data.length) none) = .ok (List.replicate t none ++ l.Data) := by
      have : (l.MapSize + l.PrefixMapSize).toNat = l.Data.length := by
        rw [h.hPM, h.hM, h.data_len]; omega
      rw [this, ht]; exact copyLoop_prev _ _ _
    have h1 : Rep { l with Data := List.replicate t none ++ l.Data,
                           PrefixMapSize := l.PrefixMapSize + getNextSize l.MapSize }
        (pm + t) pk pl m k len := by
      refine ⟨?_, h.hPA, h.hPL, h.hM, h.hA, h.hL, h.pl_le, ?_, h.len_le, h.k_le, h.m_pos, ?_, ?_⟩
      · show l.PrefixMapSize + getNextSize l.MapSize = ((pm + t : Nat) : Int)
        rw [ht, h.hPM]; push_cast; rfl
      · omega
      · simp [h.data_len]; omega
      · intro j
        show (∃ seg, (List.replicate t none ++ l.Data)[j]? = some (some seg)) ↔ _
        simp only [getElem?_prepend_none_some, exists_and_left]
        rw [h.slot (j - t)]
        omega
    obtain ⟨e1, e2, e3⟩ := allocPrev_install _ h1 (by omega)
    have hidx : pm + t - pk - 1 = t - 1 := by omega
    refine ⟨_, pm + t, ?_, e2, by rw [if_pos hkm, htd], ?_⟩
    · simp only [allocPrevInner, if_pos hc, hms, hcl, bind, Except.bind, pure, Except.pure]
      rw [e1]
    · intro c
      rw [e3 c]
      by_cases h2 : -((pk : Int) + 1) * 1024 ≤ c ∧ c < -(pk : Int) * 1024
      · rw [if_pos h2, if_pos h2]
      · rw [if_neg h2, if_neg h2]
        unfold cellAt
        show (if (l.PrefixMapSize + getNextSize l.MapSize) * 1024 + c < 0 then none
          else cell (List.replicate t none ++ l.Data)
            ((l.PrefixMapSize + getNextSize l.MapSize) * 1024 + c).toNat) = _
        rw [ht, h.hPM, cell_prepend_none]
        by_cases h3 : (pm : Int) * 1024 + c < 0
        · rw [if_pos h3]
          split_ifs <;> first | rfl | omega
        · rw [if_neg h3, if_neg (by omega), if_neg (by omega)]
          congr 1; omega
  · have hkm : pk ≠ pm := by
      intro e; apply hc; rw [h.hPA, h.hPM, arraySize_cast, e]
    obtain ⟨e1, e2, e3⟩ := allocPrev_install l h (by
      have := h.pk_le
      omega)
    refine ⟨_, pm, ?_, e2, by rw [if_neg hkm]; rfl, e3⟩
    simp only [allocPrevInner, if_neg hc, bind, Except.bind, pure, Except.pure]
    rw [e1]


/-! ## Append and Prepend -/

/-- The write of `Append`, when the suffix region has a free cell. -/
theorem Append_write {T : Type} (l : Mappedlist T) (x : T)
    {pm pk pl m k len : Nat} (h : Rep l pm pk pl m k len) (hlen : len < k * 1024) :
    ∃ d, set l (l.Length + l.PrefixLength) x = .ok { l with Data := d } ∧
      Rep { l with Data := d, Length := l.Length + 1 } pm pk pl m k (len + 1) ∧
      ∀ c : Int, cellAt { l with Data := d, Length := l.Length + 1 } c
        = if c = len then some x else cellAt l c := by
  have hc : (cellAt l (l.Length + l.PrefixLength - l.PrefixLength)).isSome := by
    rw [h.cellAt_isSome, h.hL]; omega
  obtain ⟨d, hd, hdl, hds, hcell⟩ := set_spec l _ x hc
  have h2 := h.of_data d hdl hds
  refine ⟨d, hd, ?_, ?_⟩
  · refine ⟨h2.hPM, h2.hPA, h2.hPL, h2.hM, h2.hA, ?_, h2.pl_le, h2.pk_le, ?_, h2.k_le,
      h2.m_pos, h2.data_len, h2.slot⟩
    · show l.Length + 1 = ((len + 1 : Nat) : Int)
      rw [h.hL]; push_cast; rfl
    · omega
  · intro c
    have := hcell c
    rw [h.hL] at this
    have e : ((len : Int) + l.PrefixLength - l.PrefixLength) = len := by omega
    rw [e] at this
    exact this

/-- The method `Append` returns; it allocates one segment when the suffix region is
full, writes the element in the first free cell of the suffix region, and keeps
every other cell. -/
theorem Append_spec {T : Type} [Inhabited T] (l : Mappedlist T) (x : T)
    {pm pk pl m k len : Nat} (h : Rep l pm pk pl m k len) :
    ∃ l' m', Append l x = .ok l' ∧
      Rep l' pm pk pl m' (if len = k * 1024 then k + 1 else k) (len + 1) ∧
      m' = m + (if len = k * 1024 ∧ k = m then nextSize m else 0) ∧
      ∀ c : Int, cellAt l' c = if c = len then some x
        else if len = k * 1024 ∧ (k : Int) * 1024 ≤ c ∧ c < (k + 1) * 1024 then some default
        else cellAt l c := by
  by_cases hfull : l.Length = l.AllocSize
  · have hk : len = k * 1024 := by rw [h.hL, h.hA] at hfull; omega
    obtain ⟨l1, m', h1, hrep1, hm, hcell1⟩ := allocNextInner_spec l h
    obtain ⟨d, hd, hrep2, hcell2⟩ := Append_write l1 x hrep1 (by omega)
    refine ⟨{ l1 with Data := d, Length := l1.Length + 1 }, m', ?_, ?_, ?_, ?_⟩
    · simp only [Append, if_pos hfull, h1, hd, bind, Except.bind, pure, Except.pure]
    · rw [if_pos hk]; exact hrep2
    · rw [hm]; simp only [hk, true_and]
    · intro c
      rw [hcell2 c, hcell1 c]
      by_cases hcl : c = len
      · rw [if_pos hcl, if_pos hcl]
      · rw [if_neg hcl, if_neg hcl]
        by_cases h3 : (k : Int) * 1024 ≤ c ∧ c < (k + 1) * 1024
        · rw [if_pos h3, if_pos ⟨hk, h3⟩]
        · rw [if_neg h3, if_neg (fun h4 => h3 h4.2)]
  · have hk : len ≠ k * 1024 := by
      intro hk; apply hfull; rw [h.hL, h.hA, hk]; push_cast; rfl
    obtain ⟨d, hd, hrep2, hcell2⟩ := Append_write l x h (by have := h.len_le; omega)
    refine ⟨{ l with Data := d, Length := l.Length + 1 }, m, ?_, ?_,
      by rw [if_neg (fun h4 => hk h4.1)]; rfl, ?_⟩
    · simp only [Append, if_neg hfull, hd, bind, Except.bind, pure, Except.pure]
    · rw [if_neg hk]; exact hrep2
    · intro c
      rw [hcell2 c]
      by_cases hcl : c = len
      · rw [if_pos hcl, if_pos hcl]
      · rw [if_neg hcl, if_neg hcl, if_neg (fun h4 => hk h4.1)]

/-- The write of `Prepend`, when the prefix region has a free cell. -/
theorem Prepend_write {T : Type} (l : Mappedlist T) (x : T)
    {pm pk pl m k len : Nat} (h : Rep l pm pk pl m k len) (hpl : pl < pk * 1024) :
    ∃ d, set { l with PrefixLength := l.PrefixLength + 1 } 0 x
        = .ok { l with PrefixLength := l.PrefixLength + 1, Data := d } ∧
      Rep { l with PrefixLength := l.PrefixLength + 1, Data := d } pm pk (pl + 1) m k len ∧
      ∀ c : Int, cellAt { l with PrefixLength := l.PrefixLength + 1, Data := d } c
        = if c = -((pl : Int) + 1) then some x else cellAt l c := by
  have h1 : Rep { l with PrefixLength := l.PrefixLength + 1 } pm pk (pl + 1) m k len := by
    refine ⟨h.hPM, h.hPA, ?_, h.hM, h.hA, h.hL, ?_, h.pk_le, h.len_le, h.k_le,
      h.m_pos, h.data_len, h.slot⟩
    · show l.PrefixLength + 1 = ((pl + 1 : Nat) : Int)
      rw [h.hPL]; push_cast; rfl
    · omega
  have hc : (cellAt { l with PrefixLength := l.PrefixLength + 1 }
      (0 - (l.PrefixLength + 1))).isSome := by
    rw [h1.cellAt_isSome, h.hPL]; omega
  obtain ⟨d, hd, hdl, hds, hcell⟩ := set_spec { l with PrefixLength := l.PrefixLength + 1 } 0 x hc
  refine ⟨d, hd, h1.of_data d hdl hds, ?_⟩
  intro c
  have := hcell c
  simp only [h.hPL] at this
  have e : (0 - ((pl : Int) + 1)) = -((pl : Int) + 1) := by omega
  rw [e] at this
  exact this

/-- The method `Prepend` returns; it allocates one segment when the prefix region is
full, writes the element in the cell before the first live one, and keeps every
other cell at its offset from the boundary. -/
theorem Prepend_spec {T : Type} [Inhabited T] (l : Mappedlist T) (x : T)
    {pm pk pl m k len : Nat} (h : Rep l pm pk pl m k len) :
    ∃ l' pm', Prepend l x = .ok l' ∧
      Rep l' pm' (if pl = pk * 1024 then pk + 1 else pk) (pl + 1) m k len ∧
      pm' = pm + (if pl = pk * 1024 ∧ pk = pm then nextSize m else 0) ∧
      ∀ c : Int, cellAt l' c = if c = -((pl : Int) + 1) then some x
        else if pl = pk * 1024 ∧ -((pk : Int) + 1) * 1024 ≤ c ∧ c < -(pk : Int) * 1024
          then some default
        else cellAt l c := by
  by_cases hfull : l.PrefixLength = l.PrefixAllocSize
  · have hk : pl = pk * 1024 := by rw [h.hPL, h.hPA] at hfull; omega
    obtain ⟨l1, pm', h1, hrep1, hm, hcell1⟩ := allocPrevInner_spec l h
    obtain ⟨d, hd, hrep2, hcell2⟩ := Prepend_write l1 x hrep1 (by omega)
    refine ⟨{ l1 with PrefixLength := l1.PrefixLength + 1, Data := d }, pm', ?_, ?_, ?_, ?_⟩
    · simp only [Prepend, if_pos hfull, h1, hd, bind, Except.bind, pure, Except.pure]
    · rw [if_pos hk]; exact hrep2
    · rw [hm]; simp only [hk, true_and]
    · intro c
      rw [hcell2 c, hcell1 c]
      by_cases hcl : c = -((pl : Int) + 1)
      · rw [if_pos hcl, if_pos hcl]
      · rw [if_neg hcl, if_neg hcl]
        by_cases h3 : -((pk : Int) + 1) * 1024 ≤ c ∧ c < -(pk : Int) * 1024
        · rw [if_pos h3, if_pos ⟨hk, h3⟩]
        · rw [if_neg h3, if_neg (fun h4 => h3 h4.2)]
  · have hk : pl ≠ pk * 1024 := by
      intro hk; apply hfull; rw [h.hPL, h.hPA, hk]; push_cast; rfl
    obtain ⟨d, hd, hrep2, hcell2⟩ := Prepend_write l x h (by have := h.pl_le; omega)
    refine ⟨{ l with PrefixLength := l.PrefixLength + 1, Data := d }, pm, ?_, ?_,
      by rw [if_neg (fun h4 => hk h4.1)]; rfl, ?_⟩
    · simp only [Prepend, if_neg hfull, hd, bind, Except.bind, pure, Except.pure]
    · rw [if_neg hk]; exact hrep2
    · intro c
      rw [hcell2 c]
      by_cases hcl : c = -((pl : Int) + 1)
      · rw [if_pos hcl, if_pos hcl]
      · rw [if_neg hcl, if_neg hcl, if_neg (fun h4 => hk h4.1)]


/-! ## Map and the two constructors -/

theorem mapInner_get {T : Type} (f : T → T) (seg : Segment T) :
    ∀ (n : Nat) (i : Fin arraySize),
      (mapInner f n seg).get i = if i.val < n then f (seg.get i) else seg.get i := by
  intro n
  induction n with
  | zero => intro i; simp [mapInner]
  | succ n ih =>
    intro i
    simp only [mapInner]
    by_cases h : n < arraySize
    · rw [dif_pos h, Mathlib.Vector.get_set_eq_if]
      by_cases hi : (⟨n, h⟩ : Fin arraySize) = i
      · subst hi
        rw [if_pos rfl, ih ⟨n, h⟩, if_neg (lt_irrefl n), if_pos (Nat.lt_succ_self n)]
      · have hne : n ≠ i.val := fun e => hi (Fin.ext e)
        rw [if_neg hi, ih i]
        by_cases h2 : i.val < n
        · rw [if_pos h2, if_pos (by omega)]
        · rw [if_neg h2, if_neg (by omega)]
    · rw [dif_neg h, ih i]
      have := i.isLt
      rw [if_pos (by omega), if_pos (by omega)]

theorem mapInner_full {T : Type} (f : T → T) (seg : Segment T) (i : Fin arraySize) :
    (mapInner f arraySize seg).get i = f (seg.get i) := by
  rw [mapInner_get, if_pos i.isLt]

theorem cell_map {T : Type} (f : T → T) (d : List (Option (Segment T))) (q : Nat) :
    cell (d.map (Option.map (mapInner f arraySize))) q = (cell d q).map f := by
  unfold cell
  rw [List.getElem?_map]
  rcases d[q / arraySize]? with _ | (_ | seg)
  · rfl
  · rfl
  · simp [mapInner_full]

/-- The method `Map` keeps the counters and the shape of the directory, and applies
the function to every cell of every allocated segment. -/
theorem Map_spec {T : Type} (l : Mappedlist T) (f : T → T)
    {pm pk pl m k len : Nat} (h : Rep l pm pk pl m k len) :
    Rep (Map l f) pm pk pl m k len ∧ ∀ c : Int, cellAt (Map l f) c = (cellAt l c).map f := by
  constructor
  · refine h.of_data _ (by simp) ?_
    intro j
    rw [List.getElem?_map]
    rcases l.Data[j]? with _ | (_ | seg) <;> simp
  · intro c
    unfold cellAt Map
    simp only [cell_map]
    split_ifs <;> rfl

theorem Make_rep {T : Type} [Inhabited T] : Rep (Make : Mappedlist T) 0 0 0 1 1 0 := by
  refine ⟨rfl, rfl, rfl, rfl, rfl, rfl, by omega, by omega, by omega, by omega, by omega,
    rfl, ?_⟩
  intro j
  show (∃ seg, [some (GenerateInner : Segment T)][j]? = some (some seg)) ↔ _
  rcases j with _ | j
  · simp
  · simp

theorem Make_cellAt {T : Type} [Inhabited T] (c : Int) :
    cellAt (Make : Mappedlist T) c = if 0 ≤ c ∧ c < 1024 then some default else none := by
  unfold cellAt
  show (if (0 : Int) * 1024 + c < 0 then none
    else cell [some (GenerateInner : Segment T)] ((0 : Int) * 1024 + c).toNat) = _
  by_cases h0 : (0 : Int) * 1024 + c < 0
  · rw [if_pos h0, if_neg (by omega)]
  · rw [if_neg h0]
    unfold cell
    have e1 := div_arraySize ((0 : Int) * 1024 + c).toNat
    by_cases h1 : c < 1024
    · have e2 : ((0 : Int) * 1024 + c).toNat / arraySize = 0 := by omega
      rw [e2, if_pos (by omega)]
      simp [GenerateInner]
    · have e2 : ((0 : Int) * 1024 + c).toNat / arraySize
          = (((0 : Int) * 1024 + c).toNat / arraySize - 1) + 1 := by omega
      rw [e2, if_neg (by omega)]
      simp

theorem fillInner_get {T : Type} (arr : List T) (i : Nat) :
    ∀ (fuel j : Nat) (seg : Segment T) (q : Fin arraySize),
      (fillInner arr i fuel j seg).get q
        = if j ≤ q.val ∧ q.val < j + fuel then (arr[i * arraySize + q.val]?).getD (seg.get q)
          else seg.get q := by
  intro fuel
  induction fuel with
  | zero => intro j seg q; rw [if_neg (by omega)]; rfl
  | succ fuel ih =>
    intro j seg q
    simp only [fillInner]
    by_cases h : j < arraySize
    · rw [dif_pos h]
      rcases hv : arr[i * arraySize + j]? with _ | v
      · simp only []
        by_cases hq : j ≤ q.val ∧ q.val < j + (fuel + 1)
        · rw [if_pos hq]
          have : arr[i * arraySize + q.val]? = none := by
            rw [List.getElem?_eq_none_iff] at hv ⊢; omega
          rw [this]; rfl
        · rw [if_neg hq]
      · simp only []
        rw [ih, Mathlib.Vector.get_set_eq_if]
        by_cases hqj : (⟨j, h⟩ : Fin arraySize) = q
        · subst hqj
          simp [hv]
        · have hne : j ≠ q.val := fun e => hqj (Fin.ext e)
          rw [if_neg hqj]
          by_cases hq : j ≤ q.val ∧ q.val < j + (fuel + 1)
          · rw [if_pos hq, if_pos (by omega)]
          · rw [if_neg hq, if_neg (by omega)]
    · rw [dif_neg h]
      have := q.isLt
      rw [if_neg (by omega)]

theorem MakeFromArray_rep {T : Type} [Inhabited T] (arr : List T) :
    Rep (MakeFromArray arr) 0 0 0 (arr.length / 1024 + 1) (arr.length / 1024 + 1)
      arr.length := by
  have hd : ((arr.length : Int).tdiv (arraySize : Int)) = ((arr.length / 1024 : Nat) : Int) := by
    rw [arraySize_cast, Int.tdiv_eq_ediv (by omega) (by omega)]; omega
  refine ⟨rfl, rfl, rfl, ?_, ?_, rfl, by omega, by omega, by omega, by omega, by omega, ?_, ?_⟩
  · show (arr.length : Int).tdiv (arraySize : Int) + 1 = _
    rw [hd]; push_cast; rfl
  · show ((arr.length : Int).tdiv (arraySize : Int) + 1) * (arraySize : Int) = _
    rw [hd, arraySize_cast]; push_cast; rfl
  · show ((List.range (arr.length / arraySize + 1)).map _).length = _
    simp [div_arraySize]
  · intro j
    show (∃ seg, ((List.range (arr.length / arraySize + 1)).map
      (fun i => some (fillInner arr i arraySize 0 GenerateInner)))[j]? = some (some seg)) ↔ _
    rw [List.getElem?_map, div_arraySize]
    by_cases hj : j < arr.length / 1024 + 1
    · rw [List.getElem?_range hj]
      simp; omega
    · rw [List.getElem?_eq_none (by simp; omega)]
      simp; omega

theorem MakeFromArray_cellAt {T : Type} [Inhabited T] (arr : List T) (i : Nat)
    (hi : i < arr.length) : cellAt (MakeFromArray arr) (i : Int) = some arr[i] := by
  unfold cellAt
  show (if (0 : Int) * 1024 + i < 0 then none
    else cell ((List.range (arr.length / arraySize + 1)).map
      (fun i => some (fillInner arr i arraySize 0 GenerateInner))) ((0 : Int) * 1024 + i).toNat)
      = _
  rw [if_neg (by omega)]
  have e : ((0 : Int) * 1024 + i).toNat = i := by omega
  rw [e]
  unfold cell
  have e1 := div_arraySize i
  have e2 := div_arraySize arr.length
  rw [List.getElem?_map, List.getElem?_range (by omega)]
  simp only [Option.map_some', Option.some.injEq]
  rw [fillInner_get, if_pos ⟨Nat.zero_le _, by simp; exact Nat.mod_lt _ (by decide)⟩]
  have e3 : i / arraySize * arraySize + i % arraySize = i := Nat.div_add_mod' i arraySize
  simp only [e3, List.getElem?_eq_getElem hi, Option.getD_some]


/-! ## Reachable lists and ToArray -/

theorem Reachable.wf {T : Type} [Inhabited T] {l : Mappedlist T} (h : Reachable l) : WF l := by
  induction h with
  | make => exact ⟨_, _, _, _, _, _, Make_rep⟩
  | makeFromArray arr => exact ⟨_, _, _, _, _, _, MakeFromArray_rep arr⟩
  | append x _ hx ih =>
    obtain ⟨pm, pk, pl, m, k, len, hr⟩ := ih
    obtain ⟨l2, m', h2, hr2, _, _⟩ := Append_spec _ x hr
    rw [h2] at hx; cases hx
    exact ⟨_, _, _, _, _, _, hr2⟩
  | prepend x _ hx ih =>
    obtain ⟨pm, pk, pl, m, k, len, hr⟩ := ih
    obtain ⟨l2, pm', h2, hr2, _, _⟩ := Prepend_spec _ x hr
    rw [h2] at hx; cases hx
    exact ⟨_, _, _, _, _, _, hr2⟩
  | map f _ ih =>
    obtain ⟨pm, pk, pl, m, k, len, hr⟩ := ih
    exact ⟨_, _, _, _, _, _, (Map_spec _ f hr).1⟩

theorem liveList_succ {T : Type} (l : Mappedlist T) (n : Nat) :
    liveList l (n + 1) = liveList l n ++ (cellAt l ((n : Int) - l.PrefixLength)).toList := by
  unfold liveList
  rw [List.range_succ, List.filterMap_append]
  congr 1

theorem toArrayLoop_eq {T : Type} (l : Mappedlist T) :
    ∀ n : Nat, (∀ i : Nat, i < n → (cellAt l ((i : Int) - l.PrefixLength)).isSome) →
      toArrayLoop l n = .ok (liveList l n) := by
  intro n
  induction n with
  | zero => intro _; rfl
  | succ n ih =>
    intro h
    have h1 := ih (fun i hi => h i (by omega))
    have h2 := h n (by omega)
    obtain ⟨v, hv⟩ := Option.isSome_iff_exists.1 h2
    have hg : Get l (n : Int) = .ok v := (Get_eq_cellAt l n v).2 hv
    rw [liveList_succ, hv]
    simp only [toArrayLoop, h1, hg, bind, Except.bind, pure, Except.pure, Option.toList]

theorem liveList_length {T : Type} (l : Mappedlist T) :
    ∀ n : Nat, (∀ i : Nat, i < n → (cellAt l ((i : Int) - l.PrefixLength)).isSome) →
      (liveList l n).length = n := by
  intro n
  induction n with
  | zero => intro _; rfl
  | succ n ih =>
    intro h
    obtain ⟨v, hv⟩ := Option.isSome_iff_exists.1 (h n (by omega))
    rw [liveList_succ, hv, List.length_append, ih (fun i hi => h i (by omega))]
    rfl

theorem Rep.live {T : Type} {l : Mappedlist T} {pm pk pl m k len : Nat}
    (h : Rep l pm pk pl m k len) (i : Nat) (hi : i < pl + len) :
    (cellAt l ((i : Int) - l.PrefixLength)).isSome := by
  rw [h.cellAt_isSome, h.hPL]
  have := h.pl_le
  have := h.len_le
  omega

/-- The method `ToArray` returns the live cells in the order of the logical
indices. -/
theorem Rep.toArray {T : Type} {l : Mappedlist T} {pm pk pl m k len : Nat}
    (h : Rep l pm pk pl m k len) : ToArray l = .ok (liveList l (pl + len)) := by
  unfold ToArray
  rw [h.hPL, h.hL, if_neg (by omega)]
  have e : ((pl : Int) + (len : Int)).toNat = pl + len := by omega
  rw [e]
  exact toArrayLoop_eq l _ (fun i hi => h.live i hi)

theorem liveList_congr {T : Type} (l l' : Mappedlist T) (n : Nat)
    (h : ∀ i : Nat, i < n →
      cellAt l' ((i : Int) - l'.PrefixLength) = cellAt l ((i : Int) - l.PrefixLength)) :
    liveList l' n = liveList l n := by
  induction n with
  | zero => rfl
  | succ n ih =>
    rw [liveList_succ, liveList_succ, ih (fun i hi => h i (by omega)), h n (by omega)]

theorem liveList_shift {T : Type} (l l' : Mappedlist T) (n : Nat)
    (h : ∀ i : Nat, i < n →
      cellAt l' (((i + 1 : Nat) : Int) - l'.PrefixLength)
        = cellAt l ((i : Int) - l.PrefixLength)) :
    liveList l' (n + 1) = (cellAt l' ((0 : Nat) - l'.PrefixLength)).toList ++ liveList l n := by
  induction n with
  | zero =>
    rw [liveList_succ]
    simp [liveList]
  | succ n ih =>
    rw [liveList_succ, ih (fun i hi => h i (by omega)), h n (by omega), liveList_succ,
      List.append_assoc]

theorem liveList_map {T : Type} (l : Mappedlist T) (f : T → T) (n : Nat)
    {pm pk pl m k len : Nat} (h : Rep l pm pk pl m k len) :
    liveList (Map l f) n = (liveList l n).map f := by
  induction n with
  | zero => rfl
  | succ n ih =>
    rw [liveList_succ, liveList_succ, ih, List.map_append, (Map_spec l f h).2]
    show _ ++ (Option.map f (cellAt l ((n : Int) - l.PrefixLength))).toList = _
    rcases cellAt l ((n : Int) - l.PrefixLength) with _ | v <;> rfl


/-! ## Count -/

theorem sum_set_add (c d : Int) :
    ∀ (counts : List Int) (i : Nat), counts[i]? = some c →
      (counts.set i (c + d)).sum = counts.sum + d := by
  intro counts
  induction counts with
  | nil => intro i h; simp at h
  | cons a rest ih =>
    intro i h
    rcases i with _ | i
    · simp at h; subst h; simp [List.set]; ring
    · simp at h
      simp only [List.set, List.sum_cons, ih i h]; ring

theorem countInner_spec {T : Type} (f : T → Bool) (index : Nat) (seg : Segment T) :
    ∀ (n : Nat) (counts : List Int), index < counts.length →
      ∃ r, countInner f index seg n counts = .ok r ∧ r.length = counts.length ∧
        r.sum = counts.sum + (countRange (segPred f seg) 0 n : Nat) := by
  intro n
  induction n with
  | zero => intro counts _; exact ⟨counts, rfl, rfl, by simp [countRange]⟩
  | succ n ih =>
    intro counts hlt
    obtain ⟨r, hr, hlen, hsum⟩ := ih counts hlt
    simp only [countInner, hr, bind, Except.bind, countRange, Nat.zero_add]
    by_cases h : n < arraySize
    · rw [dif_pos h]
      have hp : segPred f seg n = f (seg.get ⟨n, h⟩) := by simp [segPred, h]
      rw [hp]
      by_cases hf : f (seg.get ⟨n, h⟩) = true
      · rw [if_pos hf, if_pos hf]
        have hget : r[index]? = some r[index] := List.getElem?_eq_getElem (by omega)
        rw [sliceGet_nat _ _ _ hget]
        simp only []
        rw [sliceSet_nat _ _ _ (by omega)]
        refine ⟨_, rfl, by simp [hlen], ?_⟩
        rw [sum_set_add _ _ _ _ hget, hsum]; push_cast; ring
      · rw [if_neg hf, if_neg hf]
        exact ⟨r, rfl, hlen, by rw [hsum]; simp⟩
    · rw [dif_neg h]
      have hp : segPred f seg n = false := by simp [segPred, h]
      rw [hp]
      exact ⟨r, rfl, hlen, by rw [hsum]; simp⟩

theorem countOuter_spec {T : Type} (f : T → Bool) :
    ∀ (data : List (Option (Segment T))) (index : Nat) (counts : List Int),
      index + data.length ≤ counts.length →
      ∃ r, countOuter f data index counts = .ok r ∧ r.length = counts.length ∧
        r.sum = counts.sum + (dirCount f data : Nat) := by
  intro data
  induction data with
  | nil => intro index counts _; exact ⟨counts, rfl, rfl, by simp [dirCount]⟩
  | cons s rest ih =>
    intro index counts hlen
    simp only [List.length_cons] at hlen
    rcases s with _ | seg
    · obtain ⟨r, hr, hl, hs⟩ := ih (index + 1) counts (by omega)
      exact ⟨r, by simp only [countOuter, hr], hl, by rw [hs]; simp [dirCount]⟩
    · obtain ⟨r1, hr1, hl1, hs1⟩ := countInner_spec f index seg arraySize counts (by omega)
      obtain ⟨r, hr, hl, hs⟩ := ih (index + 1) r1 (by omega)
      refine ⟨r, by simp only [countOuter, hr1, hr, bind, Except.bind], by omega, ?_⟩
      rw [hs, hs1]; simp only [dirCount]; push_cast; ring

/-- The method `Count` returns the number of the cells of the allocated segments,
live or not, on which the predicate holds. -/
theorem Rep.count {T : Type} {l : Mappedlist T} {pm pk pl m k len : Nat}
    (h : Rep l pm pk pl m k len) (f : T → Bool) :
    Count l f = .ok (dirCount f l.Data : Nat) := by
  unfold Count makeSlice
  rw [h.hM, h.hPM, if_neg (by omega)]
  obtain ⟨r, hr, _, hs⟩ := countOuter_spec f l.Data 0
    (List.replicate ((m : Int) + (pm : Int)).toNat 0) (by
      rw [h.data_len, List.length_replicate]; omega)
  simp only [bind, Except.bind, hr, pure, Except.pure]
  rw [hs]
  simp

theorem countRange_add (g : Nat → Bool) (a n : Nat) :
    ∀ n' : Nat, countRange g a (n + n') = countRange g a n + countRange g (a + n) n' := by
  intro n'
  induction n' with
  | zero => rfl
  | succ n' ih =>
    rw [← Nat.add_assoc, countRange, ih, countRange, Nat.add_assoc, Nat.add_assoc]

theorem countRange_congr (g g' : Nat → Bool) (a a' : Nat) :
    ∀ n : Nat, (∀ j, j < n → g (a + j) = g' (a' + j)) →
      countRange g a n = countRange g' a' n := by
  intro n
  induction n with
  | zero => intro _; rfl
  | succ n ih =>
    intro h
    rw [countRange, countRange, ih (fun j hj => h j (by omega)), h n (by omega)]

theorem countRange_false (g : Nat → Bool) (a : Nat) :
    ∀ n : Nat, (∀ j, j < n → g (a + j) = false) → countRange g a n = 0 := by
  intro n
  induction n with
  | zero => intro _; rfl
  | succ n ih =>
    intro h
    rw [countRange, ih (fun j hj => h j (by omega)), h n (by omega)]
    rfl

theorem countRange_true (g : Nat → Bool) (a : Nat) :
    ∀ n : Nat, (∀ j, j < n → g (a + j) = true) → countRange g a n = n := by
  intro n
  induction n with
  | zero => intro _; rfl
  | succ n ih =>
    intro h
    rw [countRange, ih (fun j hj => h j (by omega)), h n (by omega), if_pos rfl]

theorem cell_cons_add {T : Type} (s : Option (Segment T)) (d : List (Option (Segment T)))
    (j : Nat) : cell (s :: d) (1024 + j) = cell d j := by
  unfold cell
  have e1 : (1024 + j) / arraySize = j / arraySize + 1 := by
    have := div_arraySize (1024 + j); have := div_arraySize j
    omega
  have e2 : (1024 + j) % arraySize = j % arraySize := by
    have := mod_arraySize (1024 + j); have := mod_arraySize j
    omega
  rw [e1, List.getElem?_cons_succ]
  rcases d[j / arraySize]? with _ | (_ | seg)
  · rfl
  · rfl
  · simp only [Option.some.injEq]
    congr 2

theorem cell_cons_lt {T : Type} (f : T → Bool) (s : Option (Segment T))
    (d : List (Option (Segment T))) (j : Nat) (hj : j < 1024) :
    (cell (s :: d) j).any f = match s with
      | none => false
      | some seg => segPred f seg j := by
  unfold cell
  have e1 : j / arraySize = 0 := by
    have := div_arraySize j; omega
  have e2 : j % arraySize = j := by
    have := mod_arraySize j; omega
  have hj2 : j < arraySize := hj
  rw [e1, List.getElem?_cons_zero]
  rcases s with _ | seg
  · rfl
  · simp only [Option.any_some, segPred, dif_pos hj2]
    congr 2
    exact Fin.ext e2

theorem dirCount_eq {T : Type} (f : T → Bool) :
    ∀ d : List (Option (Segment T)),
      dirCount f d = countRange (fun q => (cell d q).any f) 0 (d.length * 1024) := by
  intro d
  induction d with
  | nil => simp only [List.length_nil, Nat.zero_mul]; rfl
  | cons s d ih =>
    have e : (s :: d).length * 1024 = 1024 + d.length * 1024 := by
      simp only [List.length_cons]; omega
    rw [e, countRange_add, Nat.zero_add]
    have h2 : countRange (fun q => (cell (s :: d) q).any f) 1024 (d.length * 1024)
        = countRange (fun q => (cell d q).any f) 0 (d.length * 1024) := by
      apply countRange_congr
      intro j _
      simp only [cell_cons_add, Nat.zero_add]
    rw [h2, ← ih]
    rcases s with _ | seg
    · rw [dirCount, countRange_false _ _ _ (fun j hj => by
        simp only [Nat.zero_add]; rw [cell_cons_lt f none d j hj])]
      simp
    · have hseg : countRange (segPred f seg) 0 arraySize
          = countRange (fun q => (cell (some seg :: d) q).any f) 0 1024 :=
        countRange_congr _ _ 0 0 1024 (fun j hj => by
          simp only [Nat.zero_add]
          rw [cell_cons_lt f (some seg) d j hj])
      rw [dirCount, hseg]

theorem countAt_add {T : Type} (l : Mappedlist T) (f : T → Bool) (a : Int) (n n' : Nat) :
    countAt l f a (n + n') = countAt l f a n + countAt l f (a + n) n' := by
  unfold countAt
  rw [countRange_add]
  congr 1
  apply countRange_congr
  intro j _
  simp only [Nat.zero_add]
  congr 2
  push_cast; ring

theorem countAt_none {T : Type} (l : Mappedlist T) (f : T → Bool) (a : Int) (n : Nat)
    (h : ∀ j : Nat, j < n → cellAt l (a + j) = none) : countAt l f a n = 0 := by
  unfold countAt
  apply countRange_false
  intro j hj
  simp only [Nat.zero_add, h j hj]
  rfl

theorem countAt_const {T : Type} (l : Mappedlist T) (f : T → Bool) (a : Int) (n : Nat) (v : T)
    (h : ∀ j : Nat, j < n → cellAt l (a + j) = some v) :
    countAt l f a n = if f v then n else 0 := by
  unfold countAt
  by_cases hf : f v = true
  · rw [if_pos hf]
    apply countRange_true
    intro j hj
    simp only [Nat.zero_add, h j hj, Option.any_some, hf]
  · rw [if_neg hf]
    apply countRange_false
    intro j hj
    simp only [Nat.zero_add, h j hj, Option.any_some]
    simpa using hf

theorem countAt_live {T : Type} (l : Mappedlist T) (f : T → Bool) :
    ∀ n : Nat, countAt l f (-l.PrefixLength) n = (liveList l n).countP f := by
  intro n
  induction n with
  | zero => rfl
  | succ n ih =>
    rw [liveList_succ, List.countP_append, ← ih]
    unfold countAt
    rw [countRange]
    congr 1
    have e : -l.PrefixLength + ((0 + n : Nat) : Int) = (n : Int) - l.PrefixLength := by
      push_cast; ring
    rw [e]
    rcases cellAt l ((n : Int) - l.PrefixLength) with _ | v
    · rfl
    · simp [List.countP_cons]

/-- The count of `Count` over the whole directory, from the offsets of the cells. -/
theorem Rep.dirCount_eq_countAt {T : Type} {l : Mappedlist T} {pm pk pl m k len : Nat}
    (h : Rep l pm pk pl m k len) (f : T → Bool) :
    dirCount f l.Data = countAt l f (-((pm : Int) * 1024)) ((pm + m) * 1024) := by
  rw [dirCount_eq, h.data_len]
  unfold countAt
  apply countRange_congr
  intro j _
  unfold cellAt
  rw [h.hPM, if_neg (by omega)]
  congr 2
  omega

/-- On a list whose unfilled cells hold the zero value, `Count(f)` is the number of
the elements of `ToArray()` on which `f` holds plus, when `f` holds on the zero
value, the number of the allocated cells that are not live. -/
theorem Rep.count_clean {T : Type} [Inhabited T] {l : Mappedlist T} {pm pk pl m k len : Nat}
    (h : Rep l pm pk pl m k len) (hc : Clean l) (f : T → Bool) :
    Count l f = .ok (((liveList l (pl + len)).countP f
      + (if f default then (pk * 1024 - pl) + (k * 1024 - len) else 0) : Nat) : Int) := by
  rw [h.count, h.dirCount_eq_countAt]
  have hple := h.pl_le
  have hpk := h.pk_le
  have hlen := h.len_le
  have hk := h.k_le
  obtain ⟨n1, hn1⟩ : ∃ n1, pm = pk + n1 := ⟨pm - pk, by omega⟩
  obtain ⟨n2, hn2⟩ : ∃ n2, pk * 1024 = pl + n2 := ⟨pk * 1024 - pl, by omega⟩
  obtain ⟨n4, hn4⟩ : ∃ n4, k * 1024 = len + n4 := ⟨k * 1024 - len, by omega⟩
  obtain ⟨n5, hn5⟩ : ∃ n5, m = k + n5 := ⟨m - k, by omega⟩
  have e : (pm + m) * 1024 = n1 * 1024 + (n2 + ((pl + len) + (n4 + n5 * 1024))) := by omega
  have e3 : (pk * 1024 - pl) + (k * 1024 - len) = n2 + n4 := by omega
  rw [e, e3, countAt_add l f _ (n1 * 1024), countAt_add l f _ n2, countAt_add l f _ (pl + len),
    countAt_add l f _ n4]
  have isNone : ∀ c : Int, ¬ (-((pk : Int) * 1024) ≤ c ∧ c < k * 1024) → cellAt l c = none := by
    intro c hn
    rcases hcell : cellAt l c with _ | v
    · rfl
    · exact absurd ((h.cellAt_isSome c).1 (by rw [hcell]; rfl)) hn
  have isDef : ∀ c : Int, (-((pk : Int) * 1024) ≤ c ∧ c < k * 1024) →
      (c < -(pl : Int) ∨ (len : Int) ≤ c) → cellAt l c = some default := by
    intro c hin hout
    rcases hc c (by rw [h.hPL, h.hL]; exact hout) with h0 | h0
    · have := (h.cellAt_isSome c).2 hin
      rw [h0] at this; cases this
    · exact h0
  have c1 : countAt l f (-((pm : Int) * 1024)) (n1 * 1024) = 0 :=
    countAt_none l f _ _ (fun j hj => isNone _ (by omega))
  have c2 : countAt l f (-((pm : Int) * 1024) + ((n1 * 1024 : Nat) : Int)) n2
      = if f default then n2 else 0 :=
    countAt_const l f _ _ default (fun j hj => isDef _ (by omega) (by omega))
  have e2 : -((pm : Int) * 1024) + ((n1 * 1024 : Nat) : Int) + (n2 : Int)
      = -l.PrefixLength := by
    rw [h.hPL]; omega
  have c4 : countAt l f (-l.PrefixLength + ((pl + len : Nat) : Int)) n4
      = if f default then n4 else 0 :=
    countAt_const l f _ _ default (fun j hj => isDef _ (by rw [h.hPL]; omega)
      (by rw [h.hPL]; omega))
  have c5 : countAt l f (-l.PrefixLength + ((pl + len : Nat) : Int) + (n4 : Int)) (n5 * 1024)
      = 0 :=
    countAt_none l f _ _ (fun j hj => isNone _ (by rw [h.hPL]; omega))
  rw [c1, c2, e2, countAt_live, c4, c5]
  congr 2
  split_ifs <;> omega


/-! ## Insertions and the materialised list -/

theorem Append_liveList {T : Type} [Inhabited T] (l : Mappedlist T) (x : T)
    {pm pk pl m k len : Nat} (h : Rep l pm pk pl m k len) :
    ∃ l' m', Append l x = .ok l' ∧
      Rep l' pm pk pl m' (if len = k * 1024 then k + 1 else k) (len + 1) ∧
      liveList l' (pl + (len + 1)) = liveList l (pl + len) ++ [x] ∧
      (Clean l → Clean l') := by
  obtain ⟨l', m', h1, h2, _, h4⟩ := Append_spec l x h
  refine ⟨l', m', h1, h2, ?_, ?_⟩
  · have e : pl + (len + 1) = (pl + len) + 1 := by omega
    rw [e, liveList_succ, h2.hPL, h4, if_pos (by omega)]
    congr 1
    apply liveList_congr
    intro i hi
    rw [h2.hPL, h.hPL, h4, if_neg (by omega), if_neg (by omega)]
  · intro hc c hout
    rw [h2.hPL, h2.hL] at hout
    rw [h4 c, if_neg (by omega)]
    split_ifs
    · exact Or.inr rfl
    · exact hc c (by rw [h.hPL, h.hL]; omega)

theorem Prepend_liveList {T : Type} [Inhabited T] (l : Mappedlist T) (x : T)
    {pm pk pl m k len : Nat} (h : Rep l pm pk pl m k len) :
    ∃ l' pm', Prepend l x = .ok l' ∧
      Rep l' pm' (if pl = pk * 1024 then pk + 1 else pk) (pl + 1) m k len ∧
      liveList l' ((pl + 1) + len) = x :: liveList l (pl + len) ∧
      (Clean l → Clean l') := by
  obtain ⟨l', pm', h1, h2, _, h4⟩ := Prepend_spec l x h
  refine ⟨l', pm', h1, h2, ?_, ?_⟩
  · have e : (pl + 1) + len = (pl + len) + 1 := by omega
    rw [e, liveList_shift l l' (pl + len), h2.hPL, h4, if_pos (by push_cast; omega)]
    · rfl
    · intro i hi
      rw [h2.hPL, h.hPL, h4, if_neg (by push_cast; omega), if_neg (by push_cast; omega)]
      congr 1; push_cast; omega
  · intro hc c hout
    rw [h2.hPL, h2.hL] at hout
    rw [h4 c, if_neg (by push_cast at hout; omega)]
    split_ifs
    · exact Or.inr rfl
    · exact hc c (by rw [h.hPL, h.hL]; push_cast at hout; omega)

theorem length_appended_prepended {T : Type} (ops : List (Op T)) :
    (prepended ops).length + (appended ops).length = ops.length := by
  induction ops with
  | nil => rfl
  | cons op ops ih =>
    cases op <;> simp only [prepended, appended, List.length_cons] <;> omega

/-- A sequence of insertions returns; the numbers of allocated segments, the
materialised list and the cleanliness of the unfilled cells after it. -/
theorem run_spec {T : Type} [Inhabited T] (ops : List (Op T)) :
    ∀ (l : Mappedlist T) (pm pk pl m k len : Nat), Rep l pm pk pl m k len →
      ∃ l' pm' m', run ops l = .ok l' ∧
        Rep l' pm' (max pk ((pl + (prepended ops).length + 1023) / 1024))
          (pl + (prepended ops).length)
          m' (max k ((len + (appended ops).length + 1023) / 1024))
          (len + (appended ops).length) ∧
        liveList l' (pl + (prepended ops).length + (len + (appended ops).length))
          = (prepended ops).reverse ++ liveList l (pl + len) ++ appended ops ∧
        (Clean l → Clean l') := by
  induction ops with
  | nil =>
    intro l pm pk pl m k len h
    have e1 : max pk ((pl + 0 + 1023) / 1024) = pk := by have := h.pl_le; omega
    have e2 : max k ((len + 0 + 1023) / 1024) = k := by have := h.len_le; omega
    refine ⟨l, pm, m, rfl, ?_, by simp [prepended, appended], fun hc => hc⟩
    simp only [prepended, appended, List.length_nil, e1, e2]
    exact h
  | cons op ops ih =>
    intro l pm pk pl m k len h
    have hpl := h.pl_le
    have hlen := h.len_le
    cases op with
    | append x =>
      obtain ⟨l1, m1, h1, hr1, hl1, hc1⟩ := Append_liveList l x h
      obtain ⟨l2, pm2, m2, h2, hr2, hl2, hc2⟩ := ih l1 _ _ _ _ _ _ hr1
      have e : len + ((appended ops).length + 1) = len + 1 + (appended ops).length := by omega
      have ek : max (if len = k * 1024 then k + 1 else k)
          ((len + 1 + (appended ops).length + 1023) / 1024)
          = max k ((len + 1 + (appended ops).length + 1023) / 1024) := by
        split_ifs <;> omega
      refine ⟨l2, pm2, m2, ?_, ?_, ?_, fun hc => hc2 (hc1 hc)⟩
      · simp only [run, Op.apply, h1, bind, Except.bind]
        exact h2
      · simp only [prepended, appended, List.length_cons]
        rw [e, ← ek]; exact hr2
      · simp only [prepended, appended, List.length_cons]
        rw [e, hl2, hl1]
        simp
    | prepend x =>
      obtain ⟨l1, pm1, h1, hr1, hl1, hc1⟩ := Prepend_liveList l x h
      obtain ⟨l2, pm2, m2, h2, hr2, hl2, hc2⟩ := ih l1 _ _ _ _ _ _ hr1
      have e : pl + ((prepended ops).length + 1) = pl + 1 + (prepended ops).length := by omega
      have ek : max (if pl = pk * 1024 then pk + 1 else pk)
          ((pl + 1 + (prepended ops).length + 1023) / 1024)
          = max pk ((pl + 1 + (prepended ops).length + 1023) / 1024) := by
        split_ifs <;> omega
      refine ⟨l2, pm2, m2, ?_, ?_, ?_, fun hc => hc2 (hc1 hc)⟩
      · simp only [run, Op.apply, h1, bind, Except.bind]
        exact h2
      · simp only [prepended, appended, List.length_cons]
        rw [e, ← ek]; exact hr2
      · simp only [prepended, appended, List.length_cons]
        rw [e, hl2, hl1]
        simp

theorem Make_clean {T : Type} [Inhabited T] : Clean (Make : Mappedlist T) := by
  intro c _
  rw [Make_cellAt]
  split_ifs
  · exact Or.inr rfl
  · exact Or.inl rfl

/-- C1: every sequence of `Append` and `Prepend` applied to `Make()` returns a list
whose logical length `PrefixLength + Length` is the number of operations and whose
`ToArray()` is the prepended values, the last one first, followed by the appended
values in the order of their insertion. -/
theorem C1_insertion_order {T : Type} [Inhabited T] (ops : List (Op T)) :
    ∃ l : Mappedlist T, run ops Make = .ok l ∧
      l.PrefixLength + l.Length = (ops.length : Int) ∧
      ToArray l = .ok ((prepended ops).reverse ++ appended ops) := by
  obtain ⟨l, pm, m, h1, hr, hl, _⟩ := run_spec ops (Make : Mappedlist T) _ _ _ _ _ _ Make_rep
  refine ⟨l, h1, ?_, ?_⟩
  · rw [hr.hPL, hr.hL, ← length_appended_prepended ops]
    push_cast; omega
  · rw [hr.toArray, hl]
    simp [liveList]


/-! ## The bulk constructor and Map -/

theorem liveList_MakeFromArray {T : Type} [Inhabited T] (arr : List T) :
    ∀ n : Nat, n ≤ arr.length → liveList (MakeFromArray arr) n = arr.take n := by
  intro n
  induction n with
  | zero => intro _; rfl
  | succ n ih =>
    intro hn
    rw [liveList_succ, ih (by omega), List.take_succ]
    congr 1
    have e : ((n : Int) - (MakeFromArray arr).PrefixLength) = (n : Int) := by
      show (n : Int) - 0 = n
      omega
    rw [e, MakeFromArray_cellAt arr n (by omega), List.getElem?_eq_getElem (by omega)]

theorem ToArray_MakeFromArray {T : Type} [Inhabited T] (arr : List T) :
    ToArray (MakeFromArray arr) = .ok arr := by
  rw [(MakeFromArray_rep arr).toArray, Nat.zero_add, liveList_MakeFromArray arr _ (le_refl _),
    List.take_length]

/-- C2: `MakeFromArray(arr)` has `Length = len(arr)`, `PrefixLength = 0` and its
`ToArray()` is `arr`, for every slice `arr`; and for every reachable list `c`,
`ToArray()` of `c` returns and `MakeFromArray(c.ToArray()).ToArray()` is
`c.ToArray()`. -/
theorem C2_MakeFromArray_roundtrip {T : Type} [Inhabited T] (arr : List T) (c : Mappedlist T)
    (hc : Reachable c) :
    (MakeFromArray arr).Length = (arr.length : Int) ∧
      (MakeFromArray arr).PrefixLength = 0 ∧
      ToArray (MakeFromArray arr) = .ok arr ∧
      ∃ xs, ToArray c = .ok xs ∧ ToArray (MakeFromArray xs) = .ok xs := by
  refine ⟨rfl, rfl, ToArray_MakeFromArray arr, ?_⟩
  obtain ⟨pm, pk, pl, m, k, len, hr⟩ := hc.wf
  exact ⟨_, hr.toArray, ToArray_MakeFromArray _⟩

/-- C2 at the slice `[1, 2, 3]` and the reachable list `Make()`. -/
theorem C2_MakeFromArray_roundtrip_witness :
    (MakeFromArray [1, 2, 3] : Mappedlist Int).Length = (([1, 2, 3] : List Int).length : Int) ∧
      (MakeFromArray [1, 2, 3] : Mappedlist Int).PrefixLength = 0 ∧
      ToArray (MakeFromArray [1, 2, 3] : Mappedlist Int) = .ok [1, 2, 3] ∧
      ∃ xs, ToArray (Make : Mappedlist Int) = .ok xs ∧ ToArray (MakeFromArray xs) = .ok xs :=
  C2_MakeFromArray_roundtrip [1, 2, 3] Make Reachable.make

/-- C3, failing input: after `Make()`, `Append` of 1, 2, 3, 4, 5 and `Prepend` of 0,
`ToArray()` is `[0, 1, 2, 3, 4, 5]`, of which 3 elements are even, and
`Count(x -> x%2 == 0)` is 2045: the 3 even elements and the 2042 cells of the two
allocated segments that were never filled and hold the zero value. -/
theorem C3_Count_counts_unfilled_cells :
    ∃ l : Mappedlist Int,
      run [.append 1, .append 2, .append 3, .append 4, .append 5, .prepend 0] Make = .ok l ∧
      ToArray l = .ok [0, 1, 2, 3, 4, 5] ∧
      ([0, 1, 2, 3, 4, 5] : List Int).countP isEven = 3 ∧
      Count l isEven = .ok 2045 := by
  obtain ⟨l, pm, m, h1, hr, hl, hc⟩ :=
    run_spec [.append 1, .append 2, .append 3, .append 4, .append 5, .prepend 0]
      (Make : Mappedlist Int) _ _ _ _ _ _ Make_rep
  simp only [prepended, appended, List.length_cons, List.length_nil] at hr hl
  have hlive : liveList l (1 + 5) = [0, 1, 2, 3, 4, 5] := by
    have := hl
    simp only [liveList] at this
    simpa [liveList] using this
  have hk1 : max 0 ((0 + (0 + 1) + 1023) / 1024) = 1 := by decide
  have hk2 : max 1 ((0 + (0 + 1 + 1 + 1 + 1 + 1) + 1023) / 1024) = 1 := by decide
  rw [hk1, hk2] at hr
  have hr' : Rep l pm 1 1 m 1 5 := hr
  refine ⟨l, h1, ?_, by decide, ?_⟩
  · rw [hr'.toArray, hlive]
  · rw [hr'.count_clean (hc Make_clean) isEven, hlive]
    rfl


/-- C4: for every reachable list and every function `f`, `ToArray()` returns
before and after `Map(f)`, and the array after is the image under `f`, element by
element, of the array before. -/
theorem C4_Map_elementwise {T : Type} [Inhabited T] (l : Mappedlist T) (f : T → T)
    (hl : Reachable l) :
    ∃ xs, ToArray l = .ok xs ∧ ToArray (Map l f) = .ok (xs.map f) := by
  obtain ⟨pm, pk, pl, m, k, len, hr⟩ := hl.wf
  refine ⟨_, hr.toArray, ?_⟩
  rw [(Map_spec l f hr).1.toArray, liveList_map l f _ hr]

/-- C4 at `MakeFromArray([1, 2, 3])` and `x -> x*10`. -/
theorem C4_Map_elementwise_witness :
    ∃ xs, ToArray (MakeFromArray [1, 2, 3] : Mappedlist Int) = .ok xs ∧
      ToArray (Map (MakeFromArray [1, 2, 3] : Mappedlist Int) (fun x => x * 10))
        = .ok (xs.map (fun x => x * 10)) :=
  C4_Map_elementwise _ _ (Reachable.makeFromArray [1, 2, 3])

/-! ## Append and Prepend through Get -/

theorem Get_congr {T : Type} (l l' : Mappedlist T) (i i' : Int)
    (h : cellAt l' (i' - l'.PrefixLength) = cellAt l (i - l.PrefixLength))
    (hs : (cellAt l (i - l.PrefixLength)).isSome) : Get l' i' = Get l i := by
  obtain ⟨v, hv⟩ := Option.isSome_iff_exists.1 hs
  rw [(Get_eq_cellAt l i v).2 hv, (Get_eq_cellAt l' i' v).2 (h.trans hv)]

/-- C5: on a reachable list of logical length `n`, `Append(x)` returns; after it
the logical length is `n + 1`, `Get(n)` is `x`, and `Get(i)` is what it was for
every `0 <= i < n`, whether or not a segment or a directory was allocated. -/
theorem C5_Append_Get {T : Type} [Inhabited T] (l : Mappedlist T) (x : T)
    (hl : Reachable l) :
    ∃ l', Append l x = .ok l' ∧
      l'.PrefixLength + l'.Length = l.PrefixLength + l.Length + 1 ∧
      Get l' (l.PrefixLength + l.Length) = .ok x ∧
      ∀ i : Int, 0 ≤ i → i < l.PrefixLength + l.Length → Get l' i = Get l i := by
  obtain ⟨pm, pk, pl, m, k, len, hr⟩ := hl.wf
  obtain ⟨l', m', h1, h2, _, h4⟩ := Append_spec l x hr
  refine ⟨l', h1, ?_, ?_, ?_⟩
  · rw [h2.hPL, h2.hL, hr.hPL, hr.hL]; push_cast; omega
  · rw [Get_eq_cellAt, h2.hPL, hr.hPL, hr.hL, h4, if_pos (by omega)]
  · intro i h0 hi
    rw [hr.hPL, hr.hL] at hi
    apply Get_congr
    · rw [h2.hPL, hr.hPL, h4, if_neg (by omega), if_neg (by omega)]
    · rw [hr.cellAt_isSome, hr.hPL]
      have := hr.pl_le
      have := hr.len_le
      omega

/-- C5 at `MakeFromArray([1, 2, 3])` and the value 7. -/
theorem C5_Append_Get_witness :
    ∃ l', Append (MakeFromArray [1, 2, 3] : Mappedlist Int) 7 = .ok l' ∧
      l'.PrefixLength + l'.Length
        = (MakeFromArray [1, 2, 3] : Mappedlist Int).PrefixLength
          + (MakeFromArray [1, 2, 3] : Mappedlist Int).Length + 1 ∧
      Get l' ((MakeFromArray [1, 2, 3] : Mappedlist Int).PrefixLength
          + (MakeFromArray [1, 2, 3] : Mappedlist Int).Length) = .ok 7 ∧
      ∀ i : Int, 0 ≤ i →
        i < (MakeFromArray [1, 2, 3] : Mappedlist Int).PrefixLength
          + (MakeFromArray [1, 2, 3] : Mappedlist Int).Length →
        Get l' i = Get (MakeFromArray [1, 2, 3] : Mappedlist Int) i :=
  C5_Append_Get (MakeFromArray [1, 2, 3]) 7 (Reachable.makeFromArray [1, 2, 3])

/-- C6: on a reachable list of logical length `n`, `Prepend(x)` returns; after it
the logical length is `n + 1`, `Get(0)` is `x`, and `Get(i + 1)` is what `Get(i)`
was for every `0 <= i < n`, whether or not a segment or a directory was
allocated. -/
theorem C6_Prepend_Get {T : Type} [Inhabited T] (l : Mappedlist T) (x : T)
    (hl : Reachable l) :
    ∃ l', Prepend l x = .ok l' ∧
      l'.PrefixLength + l'.Length = l.PrefixLength + l.Length + 1 ∧
      Get l' 0 = .ok x ∧
      ∀ i : Int, 0 ≤ i → i < l.PrefixLength + l.Length → Get l' (i + 1) = Get l i := by
  obtain ⟨pm, pk, pl, m, k, len, hr⟩ := hl.wf
  obtain ⟨l', pm', h1, h2, _, h4⟩ := Prepend_spec l x hr
  refine ⟨l', h1, ?_, ?_, ?_⟩
  · rw [h2.hPL, h2.hL, hr.hPL, hr.hL]; push_cast; omega
  · rw [Get_eq_cellAt, h2.hPL, h4, if_pos (by push_cast; omega)]
  · intro i h0 hi
    rw [hr.hPL, hr.hL] at hi
    apply Get_congr
    · rw [h2.hPL, hr.hPL, h4, if_neg (by push_cast; omega), if_neg (by push_cast; omega)]
      congr 1; push_cast; omega
    · rw [hr.cellAt_isSome, hr.hPL]
      have := hr.pl_le
      have := hr.len_le
      omega

/-- C6 at `MakeFromArray([1, 2, 3])` and the value 7. -/
theorem C6_Prepend_Get_witness :
    ∃ l', Prepend (MakeFromArray [1, 2, 3] : Mappedlist Int) 7 = .ok l' ∧
      l'.PrefixLength + l'.Length
        = (MakeFromArray [1, 2, 3] : Mappedlist Int).PrefixLength
          + (MakeFromArray [1, 2, 3] : Mappedlist Int).Length + 1 ∧
      Get l' 0 = .ok 7 ∧
      ∀ i : Int, 0 ≤ i →
        i < (MakeFromArray [1, 2, 3] : Mappedlist Int).PrefixLength
          + (MakeFromArray [1, 2, 3] : Mappedlist Int).Length →
        Get l' (i + 1) = Get (MakeFromArray [1, 2, 3] : Mappedlist Int) i :=
  C6_Prepend_Get (MakeFromArray [1, 2, 3]) 7 (Reachable.makeFromArray [1, 2, 3])

/-! ## Get outside the logical range -/

/-- C7, counterexample: on the list `Make()`, of logical length 0, `Get(0)` returns
the zero value of the first cell instead of failing. -/
theorem C7_counterexample :
    ¬ ∀ (l : Mappedlist Int) (i : Int), Reachable l →
      (i < 0 ∨ l.PrefixLength + l.Length ≤ i) → ∃ e, Get l i = .error e := by
  intro h
  obtain ⟨e, he⟩ := h Make 0 Reachable.make (Or.inr (by decide))
  have h0 : Get (Make : Mappedlist Int) 0 = .ok default := by
    rw [Get_eq_cellAt, Make_cellAt, if_pos (by decide)]
  rw [h0] at he
  cases he

/-- C7, amended: on a reachable list, `Get(i)` fails with a run-time panic exactly
when `i < PrefixLength - PrefixAllocSize` or `i >= PrefixLength + AllocSize`, that
is when the translated position is outside the allocated segments; for every other
index, also outside `[0, PrefixLength + Length)`, it returns the content of the
cell. -/
theorem C7_Get_fails_iff {T : Type} [Inhabited T] (l : Mappedlist T) (i : Int)
    (hl : Reachable l) :
    ((∃ e, Get l i = .error e) ↔
        (i < l.PrefixLength - l.PrefixAllocSize ∨ l.PrefixLength + l.AllocSize ≤ i)) ∧
      ((∃ v, Get l i = .ok v) ↔
        (l.PrefixLength - l.PrefixAllocSize ≤ i ∧ i < l.PrefixLength + l.AllocSize)) := by
  obtain ⟨pm, pk, pl, m, k, len, hr⟩ := hl.wf
  have hs := hr.cellAt_isSome (i - l.PrefixLength)
  rw [hr.hPL, hr.hPA, hr.hA]
  rw [hr.hPL] at hs
  constructor
  · rw [Get_error_iff, hr.hPL]
    rcases hc : cellAt l (i - pl) with _ | v
    · rw [hc] at hs
      have hn : ¬ (-((pk : Int) * 1024) ≤ i - pl ∧ i - pl < k * 1024) := fun h => by
        have := hs.2 h; cases this
      constructor
      · intro _; omega
      · intro _; rfl
    · rw [hc] at hs
      have hy : -((pk : Int) * 1024) ≤ i - pl ∧ i - pl < k * 1024 := hs.1 rfl
      constructor
      · intro h; cases h
      · intro _; omega
  · simp only [Get_eq_cellAt, hr.hPL]
    rw [← Option.isSome_iff_exists, hs]
    omega

/-- C7, amended, at `Make()` and the index 1024. -/
theorem C7_Get_fails_iff_witness :
    ((∃ e, Get (Make : Mappedlist Int) 1024 = .error e) ↔
        ((1024 : Int) < (Make : Mappedlist Int).PrefixLength
            - (Make : Mappedlist Int).PrefixAllocSize ∨
          (Make : Mappedlist Int).PrefixLength + (Make : Mappedlist Int).AllocSize ≤ 1024)) ∧
      ((∃ v, Get (Make : Mappedlist Int) 1024 = .ok v) ↔
        ((Make : Mappedlist Int).PrefixLength - (Make : Mappedlist Int).PrefixAllocSize ≤ 1024 ∧
          (1024 : Int) < (Make : Mappedlist Int).PrefixLength
            + (Make : Mappedlist Int).AllocSize)) :=
  C7_Get_fails_iff Make 1024 Reachable.make

/-! ## The invariants of the counters and of the directory -/

/-- C8: in every reachable state `PrefixLength <= PrefixAllocSize <=
PrefixMapSize*arraySize` and `Length <= AllocSize <= MapSize*arraySize`, and the six
counters are non-negative. -/
theorem C8_counter_invariants {T : Type} [Inhabited T] (l : Mappedlist T) (hl : Reachable l) :
    (l.PrefixLength ≤ l.PrefixAllocSize ∧ l.PrefixAllocSize ≤ l.PrefixMapSize * arraySize) ∧
      (l.Length ≤ l.AllocSize ∧ l.AllocSize ≤ l.MapSize * arraySize) ∧
      0 ≤ l.PrefixLength ∧ 0 ≤ l.PrefixAllocSize ∧ 0 ≤ l.PrefixMapSize ∧
      0 ≤ l.Length ∧ 0 ≤ l.AllocSize ∧ 0 ≤ l.MapSize := by
  obtain ⟨pm, pk, pl, m, k, len, hr⟩ := hl.wf
  have := hr.pl_le
  have := hr.pk_le
  have := hr.len_le
  have := hr.k_le
  rw [hr.hPL, hr.hPA, hr.hPM, hr.hL, hr.hA, hr.hM, arraySize_cast]
  omega

/-- C8 at `MakeFromArray([1, 2, 3])`. -/
theorem C8_counter_invariants_witness :
    ((MakeFromArray [1, 2, 3] : Mappedlist Int).PrefixLength
          ≤ (MakeFromArray [1, 2, 3] : Mappedlist Int).PrefixAllocSize ∧
        (MakeFromArray [1, 2, 3] : Mappedlist Int).PrefixAllocSize
          ≤ (MakeFromArray [1, 2, 3] : Mappedlist Int).PrefixMapSize * arraySize) ∧
      ((MakeFromArray [1, 2, 3] : Mappedlist Int).Length
          ≤ (MakeFromArray [1, 2, 3] : Mappedlist Int).AllocSize ∧
        (MakeFromArray [1, 2, 3] : Mappedlist Int).AllocSize
          ≤ (MakeFromArray [1, 2, 3] : Mappedlist Int).MapSize * arraySize) ∧
      0 ≤ (MakeFromArray [1, 2, 3] : Mappedlist Int).PrefixLength ∧
      0 ≤ (MakeFromArray [1, 2, 3] : Mappedlist Int).PrefixAllocSize ∧
      0 ≤ (MakeFromArray [1, 2, 3] : Mappedlist Int).PrefixMapSize ∧
      0 ≤ (MakeFromArray [1, 2, 3] : Mappedlist Int).Length ∧
      0 ≤ (MakeFromArray [1, 2, 3] : Mappedlist Int).AllocSize ∧
      0 ≤ (MakeFromArray [1, 2, 3] : Mappedlist Int).MapSize :=
  C8_counter_invariants _ (Reachable.makeFromArray [1, 2, 3])

/-- C9: in every reachable state the directory has exactly `PrefixMapSize + MapSize`
slots; the slot `j` holds a segment if and only if
`PrefixMapSize - PrefixAllocSize/arraySize <= j < PrefixMapSize + AllocSize/arraySize`,
and every other slot of the directory is nil. -/
theorem C9_directory_shape {T : Type} [Inhabited T] (l : Mappedlist T) (hl : Reachable l) :
    (l.Data.length : Int) = l.PrefixMapSize + l.MapSize ∧
      ∀ j : Nat,
        ((∃ seg, l.Data[j]? = some (some seg)) ↔
          (l.PrefixMapSize - l.PrefixAllocSize.tdiv arraySize ≤ j ∧
            (j : Int) < l.PrefixMapSize + l.AllocSize.tdiv arraySize)) ∧
        (j < l.Data.length →
          ¬ (l.PrefixMapSize - l.PrefixAllocSize.tdiv arraySize ≤ j ∧
            (j : Int) < l.PrefixMapSize + l.AllocSize.tdiv arraySize) →
          l.Data[j]? = some none) := by
  obtain ⟨pm, pk, pl, m, k, len, hr⟩ := hl.wf
  have e1 : l.PrefixAllocSize.tdiv arraySize = pk := by
    rw [hr.hPA, arraySize_cast, Int.tdiv_eq_ediv (by omega) (by omega)]; omega
  have e2 : l.AllocSize.tdiv arraySize = k := by
    rw [hr.hA, arraySize_cast, Int.tdiv_eq_ediv (by omega) (by omega)]; omega
  rw [e1, e2, hr.hPM, hr.hM, hr.data_len]
  refine ⟨by push_cast; rfl, ?_⟩
  intro j
  have hs := hr.slot j
  have hiff : (pm ≤ j + pk ∧ j < pm + k) ↔ ((pm : Int) - pk ≤ j ∧ (j : Int) < pm + k) := by
    omega
  refine ⟨hs.trans hiff, ?_⟩
  intro hj hn
  rcases hd : l.Data[j]? with _ | (_ | seg)
  · rw [List.getElem?_eq_none_iff, hr.data_len] at hd; omega
  · rfl
  · exact absurd (hiff.1 (hs.1 ⟨seg, hd⟩)) hn

/-- C9 at `Make()`. -/
theorem C9_directory_shape_witness :
    (((Make : Mappedlist Int).Data.length : Nat) : Int)
        = (Make : Mappedlist Int).PrefixMapSize + (Make : Mappedlist Int).MapSize ∧
      ∀ j : Nat,
        ((∃ seg, (Make : Mappedlist Int).Data[j]? = some (some seg)) ↔
          ((Make : Mappedlist Int).PrefixMapSize
              - (Make : Mappedlist Int).PrefixAllocSize.tdiv arraySize ≤ j ∧
            (j : Int) < (Make : Mappedlist Int).PrefixMapSize
              + (Make : Mappedlist Int).AllocSize.tdiv arraySize)) ∧
        (j < (Make : Mappedlist Int).Data.length →
          ¬ ((Make : Mappedlist Int).PrefixMapSize
              - (Make : Mappedlist Int).PrefixAllocSize.tdiv arraySize ≤ j ∧
            (j : Int) < (Make : Mappedlist Int).PrefixMapSize
              + (Make : Mappedlist Int).AllocSize.tdiv arraySize) →
          (Make : Mappedlist Int).Data[j]? = some none) :=
  C9_directory_shape Make Reachable.make

/-! ## The growth policy -/

/-- C10, counterexample: the growth of a directory of size 0 is 0, below 1. -/
theorem C10_counterexample : ¬ ∀ s : Int, 0 ≤ s → 1 ≤ getNextSize s := by
  intro h
  have := h 0 (le_refl _)
  revert this
  decide

/-- C10, amended: for every directory size `s >= 0`, `getNextSize(s)` is `s/4`
(integer division) when `s > 1024` and `s` otherwise; the growth is at least 1 when
`s >= 1`, and it is 0 when `s = 0`. -/
theorem C10_getNextSize (s : Int) (hs : 0 ≤ s) :
    getNextSize s = (if s > 1024 then s / 4 else s) ∧
      (1 ≤ s → 1 ≤ getNextSize s) ∧ getNextSize 0 = 0 := by
  have e : getNextSize s = (if s > 1024 then s / 4 else s) := by
    unfold getNextSize growthFactor
    by_cases h : s > 1024
    · rw [if_pos h, if_pos h, Int.tdiv_eq_ediv hs (by decide)]
    · rw [if_neg h, if_neg h]
  refine ⟨e, ?_, by decide⟩
  intro h1
  rw [e]
  split_ifs <;> omega

/-- C10, amended, at the directory size 2048. -/
theorem C10_getNextSize_witness :
    getNextSize 2048 = (if (2048 : Int) > 1024 then (2048 : Int) / 4 else 2048) ∧
      ((1 : Int) ≤ 2048 → 1 ≤ getNextSize 2048) ∧ getNextSize 0 = 0 :=
  C10_getNextSize 2048 (by decide)

/-! ## The number of allocated segments -/

theorem allocated_window {T : Type} :
    ∀ (d : List (Option (Segment T))) (a b : Nat), a ≤ b → b ≤ d.length →
      (∀ j : Nat, (∃ seg, d[j]? = some (some seg)) ↔ (a ≤ j ∧ j < b)) →
      allocated d = b - a := by
  intro d
  induction d with
  | nil =>
    intro a b _ hb _
    simp only [List.length_nil] at hb
    simp [allocated]; omega
  | cons x d ih =>
    intro a b hab hb h
    have h0 := h 0
    have ht : ∀ j : Nat, (∃ seg, d[j]? = some (some seg)) ↔ (a - 1 ≤ j ∧ j < b - 1) := by
      intro j
      have := h (j + 1)
      rw [List.getElem?_cons_succ] at this
      rw [this]; omega
    simp only [List.length_cons] at hb
    have e := ih (a - 1) (b - 1) (by omega) (by omega) ht
    unfold allocated at e ⊢
    rw [List.countP_cons, e]
    rw [List.getElem?_cons_zero] at h0
    rcases x with _ | seg
    · have : ¬ (a ≤ 0 ∧ 0 < b) := fun hh => by
        obtain ⟨s, hs⟩ := h0.2 hh
        cases hs
      simp only [Option.isSome_none, Bool.false_eq_true, if_false]
      omega
    · have : a ≤ 0 ∧ 0 < b := h0.1 ⟨seg, rfl⟩
      simp only [Option.isSome_some, if_true]
      omega

theorem Rep.allocated {T : Type} {l : Mappedlist T} {pm pk pl m k len : Nat}
    (h : Rep l pm pk pl m k len) : allocated l.Data = pk + k := by
  have hpk := h.pk_le
  have hk := h.k_le
  rw [allocated_window l.Data (pm - pk) (pm + k) (by omega) (by rw [h.data_len]; omega)]
  · omega
  · intro j
    rw [h.slot j]; omega

/-! ## The bulk constructor: number of segments -/

theorem fillInner_beyond {T : Type} (arr : List T) (i : Nat) (seg : Segment T)
    (h : arr.length ≤ i * arraySize) : fillInner arr i arraySize 0 seg = seg := by
  apply Mathlib.Vector.ext
  intro q
  rw [fillInner_get]
  split_ifs
  · rw [List.getElem?_eq_none (by omega)]; rfl
  · rfl

/-- C11: for every slice `arr` of length `n`, `MakeFromArray(arr)` has a directory
of `n/arraySize + 1` slots, all of them allocated, and
`AllocSize = (n/arraySize + 1)*arraySize`; this number of segments is
`ceil(n/arraySize)` when `n` is not a multiple of `arraySize` and
`ceil(n/arraySize) + 1` when it is, and then the last segment is the zero-initialised
array of `GenerateInner`, no element of `arr` being written to it. -/
theorem C11_MakeFromArray_segments {T : Type} [Inhabited T] (arr : List T) :
    (MakeFromArray arr).Data.length = arr.length / arraySize + 1 ∧
      allocated (MakeFromArray arr).Data = arr.length / arraySize + 1 ∧
      (MakeFromArray arr).AllocSize = ((arr.length / arraySize + 1 : Nat) : Int) * arraySize ∧
      arr.length / arraySize + 1
        = (arr.length + arraySize - 1) / arraySize
          + (if arr.length % arraySize = 0 then 1 else 0) ∧
      (arr.length % arraySize = 0 →
        (MakeFromArray arr).Data[arr.length / arraySize]? = some (some GenerateInner)) := by
  have hr := MakeFromArray_rep arr
  refine ⟨?_, ?_, ?_, ?_, ?_⟩
  · rw [hr.data_len, div_arraySize]; omega
  · rw [hr.allocated, div_arraySize]; omega
  · rw [hr.hA, div_arraySize, arraySize_cast]
  · rw [div_arraySize, mod_arraySize, arraySize_eq]
    split_ifs <;> omega
  · intro h0
    show ((List.range (arr.length / arraySize + 1)).map
      (fun i => some (fillInner arr i arraySize 0 GenerateInner)))[arr.length / arraySize]? = _
    rw [List.getElem?_map, List.getElem?_range (by omega)]
    simp only [Option.map_some']
    rw [fillInner_beyond]
    have := Nat.div_add_mod' arr.length arraySize
    omega

/-! ## Allocation of segments by Append -/

theorem appended_map_append {T : Type} (xs : List T) :
    appended (xs.map Op.append) = xs ∧ prepended (xs.map Op.append) = [] := by
  induction xs with
  | nil => exact ⟨rfl, rfl⟩
  | cons x xs ih =>
    simp only [List.map_cons, appended, prepended]
    exact ⟨by rw [ih.1], ih.2⟩

theorem prepended_map_prepend {T : Type} (xs : List T) :
    prepended (xs.map Op.prepend) = xs ∧ appended (xs.map Op.prepend) = [] := by
  induction xs with
  | nil => exact ⟨rfl, rfl⟩
  | cons x xs ih =>
    simp only [List.map_cons, appended, prepended]
    exact ⟨by rw [ih.1], ih.2⟩

theorem Reachable.run {T : Type} [Inhabited T] (ops : List (Op T)) :
    ∀ l l' : Mappedlist T, Reachable l → run ops l = .ok l' → Reachable l' := by
  induction ops with
  | nil =>
    intro l l' h e
    cases e
    exact h
  | cons op ops ih =>
    intro l l' h e
    simp only [MappedList.run, bind, Except.bind] at e
    rcases h1 : op.apply l with err | l1
    · rw [h1] at e; cases e
    · rw [h1] at e
      refine ih l1 l' ?_ e
      cases op with
      | append x => exact Reachable.append x h h1
      | prepend x => exact Reachable.prepend x h h1

/-- A sequence of `Append` that fits in the allocated segments allocates nothing:
only the length changes. -/
theorem appends_within {T : Type} [Inhabited T] (xs : List T) :
    ∀ (l : Mappedlist T) (pm pk pl m k len : Nat), Rep l pm pk pl m k len →
      len + xs.length ≤ k * 1024 →
      ∃ l', run (xs.map Op.append) l = .ok l' ∧ Rep l' pm pk pl m k (len + xs.length) := by
  induction xs with
  | nil =>
    intro l pm pk pl m k len hr _
    exact ⟨l, rfl, hr⟩
  | cons x xs ih =>
    intro l pm pk pl m k len hr hle
    rw [List.length_cons] at hle
    obtain ⟨l1, m1, h1, hr1, hm1, _⟩ := Append_spec l x hr
    have hk : ¬ len = k * 1024 := by omega
    rw [if_neg hk] at hr1
    rw [if_neg (fun hh => hk hh.1), Nat.add_zero] at hm1
    rw [hm1] at hr1
    obtain ⟨l', h2, hr2⟩ := ih l1 pm pk pl m k (len + 1) hr1 (by omega)
    refine ⟨l', ?_, ?_⟩
    · simp only [List.map_cons, MappedList.run, Op.apply, h1, bind, Except.bind]
      exact h2
    · have e : len + (x :: xs).length = len + 1 + xs.length := by
        rw [List.length_cons]; omega
      rw [e]; exact hr2

/-- C12, counterexample: after `Make()` and `Append` of 1, 2, 3, 4, 5 one segment is
allocated, not 2: the capacity `arraySize` of a segment is 1024 in the source, not
4. -/
theorem C12_counterexample :
    ¬ ∃ l : Mappedlist Int,
      run (([1, 2, 3, 4, 5] : List Int).map Op.append) Make = .ok l ∧
        allocated l.Data = 2 := by
  rintro ⟨l, h, h2⟩
  obtain ⟨l', pm', m', h1, hr, _, _⟩ :=
    run_spec (([1, 2, 3, 4, 5] : List Int).map Op.append) (Make : Mappedlist Int)
      _ _ _ _ _ _ Make_rep
  rw [h1] at h
  cases h
  rw [hr.allocated, (appended_map_append _).1, (appended_map_append _).2] at h2
  revert h2
  decide

/-- C12, amended: on a reachable list `Append` returns; it allocates a segment if and only
if `Length == AllocSize` before the call, and then exactly one: `AllocSize` grows by
`arraySize`, the number of allocated slots by one, the slot
`PrefixMapSize + AllocSize/arraySize`, not allocated before, being the only one that
becomes allocated; otherwise `AllocSize` and the allocated slots are unchanged. After
`n` calls of `Append` on `Make()` exactly `max(1, ceil(n/arraySize))` segments are
allocated, with `arraySize = 1024`: 1 segment after 5 calls, 2 segments after 1025
calls. -/
theorem C12_Append_allocates {T : Type} [Inhabited T] (l : Mappedlist T) (x : T)
    (xs : List T) (hl : Reachable l) :
    (∃ l', Append l x = .ok l' ∧
        l'.AllocSize = l.AllocSize + (if l.Length = l.AllocSize then (arraySize : Int) else 0) ∧
        allocated l'.Data = allocated l.Data + (if l.Length = l.AllocSize then 1 else 0) ∧
        ∀ j : Nat,
          ((∃ seg, l'.Data[j]? = some (some seg)) ↔
            ((∃ seg, l.Data[j]? = some (some seg)) ∨
              (l.Length = l.AllocSize ∧
                (j : Int) = l.PrefixMapSize + l.AllocSize.tdiv arraySize))) ∧
          ((j : Int) = l.PrefixMapSize + l.AllocSize.tdiv arraySize →
            ¬ ∃ seg, l.Data[j]? = some (some seg))) ∧
      (∃ l', run (xs.map Op.append) (Make : Mappedlist T) = .ok l' ∧
        allocated l'.Data = max 1 ((xs.length + arraySize - 1) / arraySize)) ∧
      (∃ l', run ((List.replicate 5 x).map Op.append) (Make : Mappedlist T) = .ok l' ∧
        allocated l'.Data = 1) ∧
      (∃ l', run ((List.replicate 1025 x).map Op.append) (Make : Mappedlist T) = .ok l' ∧
        allocated l'.Data = 2) := by
  have hrun : ∀ ys : List T, ∃ l', run (ys.map Op.append) (Make : Mappedlist T) = .ok l' ∧
      allocated l'.Data = max 1 ((ys.length + 1023) / 1024) := by
    intro ys
    obtain ⟨l', pm', m', h1, h2, _, _⟩ :=
      run_spec (ys.map Op.append) (Make : Mappedlist T) _ _ _ _ _ _ Make_rep
    refine ⟨l', h1, ?_⟩
    rw [h2.allocated, (appended_map_append ys).1, (appended_map_append ys).2]
    simp only [List.length_nil]
    omega
  obtain ⟨pm, pk, pl, m, k, len, hr⟩ := hl.wf
  refine ⟨?_, ?_, ?_, ?_⟩
  · obtain ⟨l', m', h1, h2, _, _⟩ := Append_spec l x hr
    have e2 : l.AllocSize.tdiv arraySize = k := by
      rw [hr.hA, arraySize_cast, Int.tdiv_eq_ediv (by omega) (by omega)]; omega
    have hlen := hr.len_le
    refine ⟨l', h1, ?_, ?_, ?_⟩
    · rw [h2.hA, hr.hA, hr.hL, arraySize_cast]
      by_cases hk : len = k * 1024
      · rw [if_pos hk, if_pos (by rw [hk]; push_cast; rfl)]; push_cast; omega
      · rw [if_neg hk, if_neg (by omega)]; omega
    · rw [h2.allocated, hr.allocated, hr.hA, hr.hL]
      by_cases hk : len = k * 1024
      · rw [if_pos hk, if_pos (by rw [hk]; push_cast; rfl)]; omega
      · rw [if_neg hk, if_neg (by omega)]; omega
    · intro j
      rw [h2.slot j, hr.slot j, e2, hr.hPM, hr.hL, hr.hA]
      by_cases hk : len = k * 1024
      · rw [if_pos hk]
        have : (len : Int) = (k : Int) * 1024 := by rw [hk]; push_cast; rfl
        constructor
        · constructor
          · intro h; omega
          · intro h; omega
        · intro h; omega
      · rw [if_neg hk]
        have : ¬ ((len : Int) = (k : Int) * 1024) := by omega
        constructor
        · constructor
          · intro h; exact Or.inl h
          · intro h
            rcases h with h | h
            · exact h
            · exact absurd h.1 this
        · intro h; omega
  · obtain ⟨l', h1, h2⟩ := hrun xs
    exact ⟨l', h1, by rw [h2, arraySize_eq]; omega⟩
  · obtain ⟨l', h1, h2⟩ := hrun (List.replicate 5 x)
    exact ⟨l', h1, by rw [h2, List.length_replicate]; decide⟩
  · obtain ⟨l', h1, h2⟩ := hrun (List.replicate 1025 x)
    exact ⟨l', h1, by rw [h2, List.length_replicate]; decide⟩

/-- C12, amended, at the list of `Make()` and 1024 calls `Append(0)`, whose only
segment is full, so that `Append(7)` allocates; and at the five values 1, 2, 3, 4,
5. -/
theorem C12_Append_allocates_witness :
    ∃ l : Mappedlist Int,
      run ((List.replicate 1024 (0 : Int)).map Op.append) Make = .ok l ∧
      l.Length = l.AllocSize ∧
      (∃ l', Append l 7 = .ok l' ∧
        l'.AllocSize = l.AllocSize + (if l.Length = l.AllocSize then (arraySize : Int) else 0) ∧
        allocated l'.Data = allocated l.Data + (if l.Length = l.AllocSize then 1 else 0) ∧
        ∀ j : Nat,
          ((∃ seg, l'.Data[j]? = some (some seg)) ↔
            ((∃ seg, l.Data[j]? = some (some seg)) ∨
              (l.Length = l.AllocSize ∧
                (j : Int) = l.PrefixMapSize + l.AllocSize.tdiv arraySize))) ∧
          ((j : Int) = l.PrefixMapSize + l.AllocSize.tdiv arraySize →
            ¬ ∃ seg, l.Data[j]? = some (some seg))) ∧
      (∃ l', run (([1, 2, 3, 4, 5] : List Int).map Op.append) (Make : Mappedlist Int) = .ok l' ∧
        allocated l'.Data
          = max 1 ((([1, 2, 3, 4, 5] : List Int).length + arraySize - 1) / arraySize)) ∧
      (∃ l', run ((List.replicate 5 (7 : Int)).map Op.append) (Make : Mappedlist Int) = .ok l' ∧
        allocated l'.Data = 1) ∧
      (∃ l', run ((List.replicate 1025 (7 : Int)).map Op.append) (Make : Mappedlist Int)
          = .ok l' ∧
        allocated l'.Data = 2) := by
  obtain ⟨l, h1, hr⟩ := appends_within (List.replicate 1024 (0 : Int)) (Make : Mappedlist Int)
    _ _ _ _ _ _ Make_rep (by rw [List.length_replicate])
  rw [List.length_replicate] at hr
  exact ⟨l, h1, by rw [hr.hL, hr.hA]; rfl,
    C12_Append_allocates l 7 [1, 2, 3, 4, 5] (Reachable.run _ _ l Reachable.make h1)⟩

/-! ## The separation of the prefix and of the suffix -/

/-- C13: on a reachable list `Append` returns and leaves `PrefixLength`,
`PrefixAllocSize` and `PrefixMapSize` as they were, `Prepend` returns and leaves
`Length`, `AllocSize` and `MapSize` as they were; and after any sequence of
insertions `Length` has grown by the number of `Append` calls and `PrefixLength` by
the number of `Prepend` calls. -/
theorem C13_prefix_suffix_separate {T : Type} [Inhabited T] (l : Mappedlist T) (x : T)
    (ops : List (Op T)) (hl : Reachable l) :
    (∃ l', Append l x = .ok l' ∧ l'.PrefixLength = l.PrefixLength ∧
        l'.PrefixAllocSize = l.PrefixAllocSize ∧ l'.PrefixMapSize = l.PrefixMapSize) ∧
      (∃ l', Prepend l x = .ok l' ∧ l'.Length = l.Length ∧
        l'.AllocSize = l.AllocSize ∧ l'.MapSize = l.MapSize) ∧
      (∃ l', run ops l = .ok l' ∧
        l'.Length = l.Length + ((appended ops).length : Int) ∧
        l'.PrefixLength = l.PrefixLength + ((prepended ops).length : Int)) := by
  obtain ⟨pm, pk, pl, m, k, len, hr⟩ := hl.wf
  refine ⟨?_, ?_, ?_⟩
  · obtain ⟨l', m', h1, h2, _, _⟩ := Append_spec l x hr
    exact ⟨l', h1, by rw [h2.hPL, hr.hPL], by rw [h2.hPA, hr.hPA], by rw [h2.hPM, hr.hPM]⟩
  · obtain ⟨l', pm', h1, h2, _, _⟩ := Prepend_spec l x hr
    exact ⟨l', h1, by rw [h2.hL, hr.hL], by rw [h2.hA, hr.hA], by rw [h2.hM, hr.hM]⟩
  · obtain ⟨l', pm', m', h1, h2, _, _⟩ := run_spec ops l _ _ _ _ _ _ hr
    refine ⟨l', h1, ?_, ?_⟩
    · rw [h2.hL, hr.hL]; push_cast; rfl
    · rw [h2.hPL, hr.hPL]; push_cast; rfl

/-- C13 at `MakeFromArray([1, 2, 3])`, the value 7 and the sequence `Prepend(8)`,
`Append(9)`. -/
theorem C13_prefix_suffix_separate_witness :
    (∃ l', Append (MakeFromArray [1, 2, 3] : Mappedlist Int) 7 = .ok l' ∧
        l'.PrefixLength = (MakeFromArray [1, 2, 3] : Mappedlist Int).PrefixLength ∧
        l'.PrefixAllocSize = (MakeFromArray [1, 2, 3] : Mappedlist Int).PrefixAllocSize ∧
        l'.PrefixMapSize = (MakeFromArray [1, 2, 3] : Mappedlist Int).PrefixMapSize) ∧
      (∃ l', Prepend (MakeFromArray [1, 2, 3] : Mappedlist Int) 7 = .ok l' ∧
        l'.Length = (MakeFromArray [1, 2, 3] : Mappedlist Int).Length ∧
        l'.AllocSize = (MakeFromArray [1, 2, 3] : Mappedlist Int).AllocSize ∧
        l'.MapSize = (MakeFromArray [1, 2, 3] : Mappedlist Int).MapSize) ∧
      (∃ l', run [.prepend 8, .append 9] (MakeFromArray [1, 2, 3] : Mappedlist Int) = .ok l' ∧
        l'.Length = (MakeFromArray [1, 2, 3] : Mappedlist Int).Length
          + ((appended [Op.prepend (8 : Int), .append 9]).length : Int) ∧
        l'.PrefixLength = (MakeFromArray [1, 2, 3] : Mappedlist Int).PrefixLength
          + ((prepended [Op.prepend (8 : Int), .append 9]).length : Int)) :=
  C13_prefix_suffix_separate _ 7 [.prepend 8, .append 9] (Reachable.makeFromArray [1, 2, 3])

/-! ## The directory under a sequence of Prepend -/

theorem Rep.copies_prepend {T : Type} {l : Mappedlist T} {pm pk pl m k len : Nat}
    (h : Rep l pm pk pl m k len) (x : T) :
    Op.copies l (Op.prepend x) = if pl = pk * 1024 ∧ pk = pm then m + pm else 0 := by
  show (if l.PrefixLength = l.PrefixAllocSize then allocPrevCopies l else 0) = _
  unfold allocPrevCopies
  rw [h.hPL, h.hPA, h.hPM, h.hM, arraySize_cast]
  by_cases h1 : pl = pk * 1024
  · by_cases h2 : pk = pm
    · rw [if_pos (by rw [h1]; push_cast; rfl), if_pos (by rw [h2]), if_pos ⟨h1, h2⟩]
      omega
    · rw [if_pos (by rw [h1]; push_cast; rfl), if_neg (by omega), if_neg (fun hh => h2 hh.2)]
  · rw [if_neg (by omega), if_neg (fun hh => h1 hh.1)]

theorem Rep.copies_append {T : Type} {l : Mappedlist T} {pm pk pl m k len : Nat}
    (h : Rep l pm pk pl m k len) (x : T) :
    Op.copies l (Op.append x) = if len = k * 1024 ∧ k = m then m + pm else 0 := by
  show (if l.Length = l.AllocSize then allocNextCopies l else 0) = _
  unfold allocNextCopies
  rw [h.hL, h.hA, h.hPM, h.hM, arraySize_cast]
  by_cases h1 : len = k * 1024
  · by_cases h2 : k = m
    · rw [if_pos (by rw [h1]; push_cast; rfl), if_pos (by rw [h2]), if_pos ⟨h1, h2⟩]
      omega
    · rw [if_pos (by rw [h1]; push_cast; rfl), if_neg (by omega), if_neg (fun hh => h2 hh.2)]
  · rw [if_neg (by omega), if_neg (fun hh => h1 hh.1)]

theorem triangle_succ (j : Nat) : (j + 1) * (j + 1 + 1) / 2 = j * (j + 1) / 2 + (j + 1) := by
  have e : (j + 1) * (j + 1 + 1) = j * (j + 1) + 2 * (j + 1) := by ring
  rw [e, Nat.add_mul_div_left _ _ (by decide : 0 < 2)]

theorem nextSize_one : nextSize 1 = 1 := by decide

/-- A sequence of `Prepend` on a list whose suffix is that of `Make()` and whose
prefix directory is full of segments: the directory stays full of segments, and the
slots copied add up to a difference of triangular numbers. -/
theorem prepends_spec {T : Type} [Inhabited T] (xs : List T) :
    ∀ (l : Mappedlist T) (n : Nat),
      Rep l ((n + 1023) / 1024) ((n + 1023) / 1024) n 1 1 0 →
      ∃ l' c, run (xs.map Op.prepend) l = .ok l' ∧
        Rep l' ((n + xs.length + 1023) / 1024) ((n + xs.length + 1023) / 1024)
          (n + xs.length) 1 1 0 ∧
        runCopies (xs.map Op.prepend) l = .ok c ∧
        c + (n + 1023) / 1024 * ((n + 1023) / 1024 + 1) / 2
          = (n + xs.length + 1023) / 1024 * ((n + xs.length + 1023) / 1024 + 1) / 2 := by
  induction xs with
  | nil =>
    intro l n hr
    exact ⟨l, 0, rfl, hr, rfl, by simp⟩
  | cons x xs ih =>
    intro l n hr
    obtain ⟨l1, pm1, h1, hr1, hpm1, _⟩ := Prepend_spec l x hr
    have elen : n + (x :: xs).length = n + 1 + xs.length := by
      rw [List.length_cons]; omega
    have hc := hr.copies_prepend x
    rw [nextSize_one] at hpm1
    by_cases hn : n % 1024 = 0
    · have hj : (n + 1 + 1023) / 1024 = (n + 1023) / 1024 + 1 := by omega
      have hfull : n = (n + 1023) / 1024 * 1024 := by omega
      rw [if_pos ⟨hfull, rfl⟩] at hpm1 hc
      rw [if_pos hfull] at hr1
      rw [hpm1, ← hj] at hr1
      obtain ⟨l', c, h2, hr2, h3, h4⟩ := ih l1 (n + 1) hr1
      refine ⟨l', Op.copies l (Op.prepend x) + c, ?_, ?_, ?_, ?_⟩
      · simp only [List.map_cons, run, Op.apply, h1, bind, Except.bind]
        exact h2
      · rw [elen]; exact hr2
      · simp only [List.map_cons, runCopies, Op.apply, h1, bind, Except.bind, h3, pure,
          Except.pure]
      · rw [elen, ← h4, hc, hj, triangle_succ]
        omega
    · have hj : (n + 1 + 1023) / 1024 = (n + 1023) / 1024 := by omega
      have hfull : ¬ n = (n + 1023) / 1024 * 1024 := by omega
      rw [if_neg (fun hh => hfull hh.1)] at hpm1 hc
      rw [if_neg hfull] at hr1
      rw [hpm1, Nat.add_zero, ← hj] at hr1
      obtain ⟨l', c, h2, hr2, h3, h4⟩ := ih l1 (n + 1) hr1
      refine ⟨l', Op.copies l (Op.prepend x) + c, ?_, ?_, ?_, ?_⟩
      · simp only [List.map_cons, run, Op.apply, h1, bind, Except.bind]
        exact h2
      · rw [elen]; exact hr2
      · simp only [List.map_cons, runCopies, Op.apply, h1, bind, Except.bind, h3, pure,
          Except.pure]
      · rw [elen, ← h4, hc, hj]
        omega

/-! ## The slots copied by the reallocations of the directory -/

/-- A sequence of `Append` on a list without prefix whose suffix directory is below
twice its number of segments: the copies are paid by the growth of the directory,
five slots of growth for each copy. -/
theorem appends_spec {T : Type} [Inhabited T] (xs : List T) :
    ∀ (l : Mappedlist T) (m k len : Nat), Rep l 0 0 0 m k len → m + 1 ≤ 2 * k →
      ∃ l' c m', run (xs.map Op.append) l = .ok l' ∧
        Rep l' 0 0 0 m' (max k ((len + xs.length + 1023) / 1024)) (len + xs.length) ∧
        m' + 1 ≤ 2 * max k ((len + xs.length + 1023) / 1024) ∧
        runCopies (xs.map Op.append) l = .ok c ∧ c + 5 * m ≤ 5 * m' := by
  induction xs with
  | nil =>
    intro l m k len hr hm
    have := hr.len_le
    have e : max k ((len + ([] : List T).length + 1023) / 1024) = k := by
      rw [List.length_nil]; omega
    rw [e]
    exact ⟨l, 0, m, rfl, hr, hm, rfl, by omega⟩
  | cons x xs ih =>
    intro l m k len hr hm
    obtain ⟨l1, m1, h1, hr1, hm1, _⟩ := Append_spec l x hr
    have hc := hr.copies_append x
    have hlen := hr.len_le
    have hkm := hr.k_le
    have hn : m ≤ 5 * nextSize m := by
      unfold nextSize
      split_ifs <;> omega
    have hn2 : nextSize m ≤ m := by
      unfold nextSize
      split_ifs <;> omega
    have hm1' : m1 + 1 ≤ 2 * (if len = k * 1024 then k + 1 else k) := by
      rw [hm1]
      by_cases h3 : len = k * 1024
      · rw [if_pos h3]
        split_ifs <;> omega
      · rw [if_neg h3, if_neg (fun hh => h3 hh.1)]; omega
    have hcost : Op.copies l (Op.append x) + 5 * m ≤ 5 * m1 := by
      rw [hc, hm1]
      split_ifs <;> omega
    obtain ⟨l', c, m', h2, hr2, hm2, h3, h4⟩ := ih l1 m1 _ (len + 1) hr1 hm1'
    have elen : len + (x :: xs).length = len + 1 + xs.length := by
      rw [List.length_cons]; omega
    have ek : max (if len = k * 1024 then k + 1 else k) ((len + 1 + xs.length + 1023) / 1024)
        = max k ((len + 1 + xs.length + 1023) / 1024) := by
      split_ifs <;> omega
    rw [ek] at hr2 hm2
    refine ⟨l', Op.copies l (Op.append x) + c, m', ?_, ?_, ?_, ?_, by omega⟩
    · simp only [List.map_cons, MappedList.run, Op.apply, h1, bind, Except.bind]
      exact h2
    · rw [elen]; exact hr2
    · rw [elen]; exact hm2
    · simp only [List.map_cons, runCopies, Op.apply, h1, bind, Except.bind, h3, pure,
        Except.pure]

/-- C14, failing input: over `n` calls of `Append` on `Make()` the reallocations of
the directory copy at most `10 * (n/arraySize)` slots; over `n = arraySize * j` calls of
`Prepend` on `Make()` they copy `j*(j+1)/2` slots, the sum of `1, 2, ..., j`, and for
no constant `C` is the number of slots copied by `n` calls of `Prepend` at most
`C * n` for every `n`. -/
theorem C14_Prepend_copies_not_linear {T : Type} [Inhabited T] (x : T) :
    (∀ xs : List T, ∃ c, runCopies (xs.map Op.append) (Make : Mappedlist T) = .ok c ∧
        c ≤ 10 * (xs.length / arraySize)) ∧
      (∀ j : Nat,
        runCopies ((List.replicate (arraySize * j) x).map Op.prepend) (Make : Mappedlist T)
          = .ok (j * (j + 1) / 2)) ∧
      (∀ C : Nat, ∃ n c,
        runCopies ((List.replicate n x).map Op.prepend) (Make : Mappedlist T) = .ok c ∧
          C * n < c) := by
  have hpre : ∀ j : Nat,
      runCopies ((List.replicate (arraySize * j) x).map Op.prepend) (Make : Mappedlist T)
        = .ok (j * (j + 1) / 2) := by
    intro j
    obtain ⟨l, c, _, _, h3, h4⟩ :=
      prepends_spec (List.replicate (arraySize * j) x) (Make : Mappedlist T) 0 Make_rep
    rw [List.length_replicate, arraySize_eq] at h4
    have e : (0 + 1024 * j + 1023) / 1024 = j := by omega
    rw [e] at h4
    have e0 : (0 + 1023) / 1024 * ((0 + 1023) / 1024 + 1) / 2 = 0 := by decide
    rw [e0, Nat.add_zero] at h4
    rw [h3, h4]
  refine ⟨?_, hpre, ?_⟩
  · intro xs
    obtain ⟨l, c, m, _, _, hm, h3, h4⟩ :=
      appends_spec xs (Make : Mappedlist T) 1 1 0 Make_rep (by decide)
    refine ⟨c, h3, ?_⟩
    rw [div_arraySize]
    omega
  · intro C
    refine ⟨arraySize * (2048 * C + 1), _, hpre (2048 * C + 1), ?_⟩
    have e : (2048 * C + 1) * (2048 * C + 1 + 1)
        = 2 * (C * (1024 * (2048 * C + 1)) + (2048 * C + 1)) := by ring
    rw [e, Nat.mul_div_cancel_left _ (by decide : 0 < 2), arraySize_eq]
    omega

/-! ## Safety of the translation of indices -/

/-- C15: on a reachable list, for every logical index `0 <= i < PrefixLength +
Length` the translated position `i + PrefixMapSize*arraySize - PrefixLength` is
non-negative, its slot is inside the directory and holds a segment, its offset is
in `[0, arraySize)`, and `Get(i)` returns; `Append` and `Prepend` return too, their
write landing in an allocated segment. -/
theorem C15_translation_safe {T : Type} [Inhabited T] (l : Mappedlist T) (i : Int) (x : T)
    (hl : Reachable l) (h0 : 0 ≤ i) (hi : i < l.PrefixLength + l.Length) :
    0 ≤ i + (l.PrefixMapSize * arraySize - l.PrefixLength) ∧
      0 ≤ (i + (l.PrefixMapSize * arraySize - l.PrefixLength)).tdiv arraySize ∧
      (i + (l.PrefixMapSize * arraySize - l.PrefixLength)).tdiv arraySize < l.Data.length ∧
      (∃ seg, sliceGet l.Data ((i + (l.PrefixMapSize * arraySize - l.PrefixLength)).tdiv arraySize)
        = .ok (some seg)) ∧
      0 ≤ (i + (l.PrefixMapSize * arraySize - l.PrefixLength)).tmod arraySize ∧
      (i + (l.PrefixMapSize * arraySize - l.PrefixLength)).tmod arraySize < arraySize ∧
      (∃ v, Get l i = .ok v) ∧
      (∃ l', Append l x = .ok l') ∧ (∃ l', Prepend l x = .ok l') := by
  obtain ⟨pm, pk, pl, m, k, len, hr⟩ := hl.wf
  rw [hr.hPL, hr.hL] at hi
  have h1 := hr.pl_le
  have h2 := hr.pk_le
  have h3 := hr.len_le
  have h4 := hr.k_le
  obtain ⟨p, hp⟩ : ∃ p : Nat, i + (l.PrefixMapSize * arraySize - l.PrefixLength) = p :=
    ⟨(i + (l.PrefixMapSize * arraySize - l.PrefixLength)).toNat, by
      rw [hr.hPM, hr.hPL, arraySize_cast]; omega⟩
  have hp2 : (p : Int) = i + pm * 1024 - pl := by
    rw [← hp, hr.hPM, hr.hPL, arraySize_cast]; omega
  have hslot : ∃ seg, l.Data[p / arraySize]? = some (some seg) := by
    rw [hr.slot, div_arraySize]; omega
  obtain ⟨seg, hseg⟩ := hslot
  have hlt : p / arraySize < l.Data.length := by
    rw [hr.data_len, div_arraySize]; omega
  have hs := (hr.cellAt_isSome (i - l.PrefixLength)).2 (by rw [hr.hPL]; omega)
  obtain ⟨v, hv⟩ := Option.isSome_iff_exists.1 hs
  rw [hp, tdiv_nat, tmod_nat]
  refine ⟨Int.natCast_nonneg _, Int.natCast_nonneg _, by exact_mod_cast hlt,
    ⟨seg, sliceGet_nat _ _ _ hseg⟩, Int.natCast_nonneg _,
    ?_, ⟨v, (Get_eq_cellAt l i v).2 hv⟩, ?_, ?_⟩
  · have := Nat.mod_lt p (show 0 < arraySize by decide)
    exact_mod_cast this
  · obtain ⟨l', m', e, _⟩ := Append_spec l x hr
    exact ⟨l', e⟩
  · obtain ⟨l', pm', e, _⟩ := Prepend_spec l x hr
    exact ⟨l', e⟩

/-- C15 at `MakeFromArray([1, 2, 3])`, the index 2 and the value 7. -/
theorem C15_translation_safe_witness :
    0 ≤ (2 : Int) + ((MakeFromArray [1, 2, 3] : Mappedlist Int).PrefixMapSize * arraySize
        - (MakeFromArray [1, 2, 3] : Mappedlist Int).PrefixLength) ∧
      0 ≤ ((2 : Int) + ((MakeFromArray [1, 2, 3] : Mappedlist Int).PrefixMapSize * arraySize
        - (MakeFromArray [1, 2, 3] : Mappedlist Int).PrefixLength)).tdiv arraySize ∧
      ((2 : Int) + ((MakeFromArray [1, 2, 3] : Mappedlist Int).PrefixMapSize * arraySize
        - (MakeFromArray [1, 2, 3] : Mappedlist Int).PrefixLength)).tdiv arraySize
          < (MakeFromArray [1, 2, 3] : Mappedlist Int).Data.length ∧
      (∃ seg, sliceGet (MakeFromArray [1, 2, 3] : Mappedlist Int).Data
        (((2 : Int) + ((MakeFromArray [1, 2, 3] : Mappedlist Int).PrefixMapSize * arraySize
          - (MakeFromArray [1, 2, 3] : Mappedlist Int).PrefixLength)).tdiv arraySize)
        = .ok (some seg)) ∧
      0 ≤ ((2 : Int) + ((MakeFromArray [1, 2, 3] : Mappedlist Int).PrefixMapSize * arraySize
        - (MakeFromArray [1, 2, 3] : Mappedlist Int).PrefixLength)).tmod arraySize ∧
      ((2 : Int) + ((MakeFromArray [1, 2, 3] : Mappedlist Int).PrefixMapSize * arraySize
        - (MakeFromArray [1, 2, 3] : Mappedlist Int).PrefixLength)).tmod arraySize < arraySize ∧
      (∃ v, Get (MakeFromArray [1, 2, 3] : Mappedlist Int) 2 = .ok v) ∧
      (∃ l', Append (MakeFromArray [1, 2, 3] : Mappedlist Int) 7 = .ok l') ∧
      (∃ l', Prepend (MakeFromArray [1, 2, 3] : Mappedlist Int) 7 = .ok l') :=
  C15_translation_safe (MakeFromArray [1, 2, 3]) 2 7 (Reachable.makeFromArray [1, 2, 3])
    (by decide) (by decide)

/-! ## The growth of the directory -/

/-- C16, counterexample: after `Make()`, one `Prepend` and 1024 `Append`, the list
has `PrefixMapSize = 1`, `MapSize = 1` and a full suffix, and the reallocation of
`allocNextInner` adds `getNextSize(1) = 1` slot to its 2 slots, not
`getNextSize(1 + 1) = 2`. -/
theorem C16_counterexample :
    ¬ ∀ l l' : Mappedlist Int, Reachable l →
      ((l.Length = l.AllocSize ∧ l.AllocSize = l.MapSize * arraySize ∧
          allocNextInner l = .ok l') ∨
        (l.PrefixLength = l.PrefixAllocSize ∧ l.PrefixAllocSize = l.PrefixMapSize * arraySize ∧
          allocPrevInner l = .ok l')) →
      (l'.Data.length : Int) = l.Data.length + getNextSize (l.PrefixMapSize + l.MapSize) := by
  intro h
  obtain ⟨l1, pm1, h1, hr1, hpm1, _⟩ := Prepend_spec (Make : Mappedlist Int) 0 Make_rep
  rw [nextSize_one, if_pos ⟨rfl, rfl⟩] at hpm1
  rw [if_pos rfl, hpm1] at hr1
  obtain ⟨l2, h2, hr2⟩ := appends_within (List.replicate 1024 (0 : Int)) l1 _ _ _ _ _ _ hr1
    (by rw [List.length_replicate])
  rw [List.length_replicate] at hr2
  have hreach : Reachable l2 :=
    Reachable.run _ l1 l2 (Reachable.prepend 0 Reachable.make h1) h2
  obtain ⟨l3, m3, h3, hr3, hm3, _⟩ := allocNextInner_spec l2 hr2
  rw [nextSize_one, if_pos rfl] at hm3
  rw [hm3] at hr3
  have e := h l2 l3 hreach (Or.inl ⟨by rw [hr2.hL, hr2.hA]; rfl,
    by rw [hr2.hA, hr2.hM, arraySize_cast], h3⟩)
  rw [hr3.data_len, hr2.data_len, hr2.hPM, hr2.hM] at e
  revert e
  decide

/-- C16, amended: when `allocNextInner` reallocates the directory of a reachable
list, it returns, and the number of slots added to the directory and to `MapSize` is
`getNextSize(MapSize)`, the growth policy on the size of the suffix directory before
the call, `PrefixMapSize` being unchanged; this is `getNextSize(PrefixMapSize +
MapSize)` when `PrefixMapSize = 0`. -/
theorem C16_allocNextInner_growth {T : Type} [Inhabited T] (l : Mappedlist T)
    (hl : Reachable l) (hfull : l.AllocSize = l.MapSize * arraySize) :
    ∃ l', allocNextInner l = .ok l' ∧
      (l'.Data.length : Int) = l.Data.length + getNextSize l.MapSize ∧
      l'.MapSize = l.MapSize + getNextSize l.MapSize ∧
      l'.PrefixMapSize = l.PrefixMapSize ∧
      (l.PrefixMapSize = 0 →
        getNextSize l.MapSize = getNextSize (l.PrefixMapSize + l.MapSize)) := by
  obtain ⟨pm, pk, pl, m, k, len, hr⟩ := hl.wf
  obtain ⟨l', m', h1, hr1, hm, _⟩ := allocNextInner_spec l hr
  have hkm : k = m := by
    rw [hr.hA, hr.hM, arraySize_cast] at hfull; omega
  rw [if_pos hkm] at hm
  have hn : getNextSize l.MapSize = (nextSize m : Int) := by
    rw [hr.hM, getNextSize_nat]; rfl
  refine ⟨l', h1, ?_, ?_, ?_, ?_⟩
  · rw [hr1.data_len, hr.data_len, hn, hm]; push_cast; omega
  · rw [hr1.hM, hn, hr.hM, hm]; push_cast; rfl
  · rw [hr1.hPM, hr.hPM]
  · intro h0
    rw [h0, Int.zero_add]

/-- C16, amended, at `Make()`, whose only directory slot is allocated. -/
theorem C16_allocNextInner_growth_witness :
    ∃ l', allocNextInner (Make : Mappedlist Int) = .ok l' ∧
      (l'.Data.length : Int)
        = (Make : Mappedlist Int).Data.length + getNextSize (Make : Mappedlist Int).MapSize ∧
      l'.MapSize = (Make : Mappedlist Int).MapSize + getNextSize (Make : Mappedlist Int).MapSize ∧
      l'.PrefixMapSize = (Make : Mappedlist Int).PrefixMapSize ∧
      ((Make : Mappedlist Int).PrefixMapSize = 0 →
        getNextSize (Make : Mappedlist Int).MapSize
          = getNextSize ((Make : Mappedlist Int).PrefixMapSize + (Make : Mappedlist Int).MapSize)) :=
  C16_allocNextInner_growth Make Reachable.make (by decide)

/-! ## Count on the lists built without Map -/

theorem MakeFromArray_clean {T : Type} [Inhabited T] (arr : List T) :
    Clean (MakeFromArray arr) := by
  intro c hc
  have hc' : c < 0 ∨ (arr.length : Int) ≤ c := by
    rcases hc with h | h
    · left
      have e : (MakeFromArray arr).PrefixLength = 0 := rfl
      rw [e] at h; omega
    · right; exact h
  unfold cellAt
  show (if (0 : Int) * 1024 + c < 0 then none
      else cell ((List.range (arr.length / arraySize + 1)).map
        (fun i => some (fillInner arr i arraySize 0 GenerateInner))) ((0 : Int) * 1024 + c).toNat)
        = none ∨
    (if (0 : Int) * 1024 + c < 0 then none
      else cell ((List.range (arr.length / arraySize + 1)).map
        (fun i => some (fillInner arr i arraySize 0 GenerateInner))) ((0 : Int) * 1024 + c).toNat)
        = some default
  by_cases hneg : c < 0
  · left; rw [if_pos (by omega)]
  · obtain ⟨i, rfl⟩ : ∃ i : Nat, c = i := ⟨c.toNat, by omega⟩
    have hi : arr.length ≤ i := by omega
    rw [if_neg (by omega)]
    have e : ((0 : Int) * 1024 + i).toNat = i := by omega
    rw [e]
    unfold cell
    rw [List.getElem?_map]
    by_cases hj : i / arraySize < arr.length / arraySize + 1
    · right
      rw [List.getElem?_range hj]
      simp only [Option.map_some', Option.some.injEq]
      rw [fillInner_get, if_pos ⟨Nat.zero_le _, by simp; exact Nat.mod_lt _ (by decide)⟩]
      have e3 : i / arraySize * arraySize + i % arraySize = i := Nat.div_add_mod' i arraySize
      simp only [e3]
      rw [List.getElem?_eq_none hi]
      simp [GenerateInner]
    · left
      rw [List.getElem?_eq_none (by simp; omega)]
      rfl

theorem Built.rep_clean {T : Type} [Inhabited T] {l : Mappedlist T} (h : Built l) :
    ∃ pm pk pl m k len : Nat, Rep l pm pk pl m k len ∧ Clean l := by
  induction h with
  | make => exact ⟨_, _, _, _, _, _, Make_rep, Make_clean⟩
  | makeFromArray arr => exact ⟨_, _, _, _, _, _, MakeFromArray_rep arr, MakeFromArray_clean arr⟩
  | append x _ hx ih =>
    obtain ⟨pm, pk, pl, m, k, len, hr, hc⟩ := ih
    obtain ⟨l2, m', h2, hr2, _, hc2⟩ := Append_liveList _ x hr
    rw [h2] at hx; cases hx
    exact ⟨_, _, _, _, _, _, hr2, hc2 hc⟩
  | prepend x _ hx ih =>
    obtain ⟨pm, pk, pl, m, k, len, hr, hc⟩ := ih
    obtain ⟨l2, pm', h2, hr2, _, hc2⟩ := Prepend_liveList _ x hr
    rw [h2] at hx; cases hx
    exact ⟨_, _, _, _, _, _, hr2, hc2 hc⟩

/-- C17: on a list built from `Make()` or `MakeFromArray` by `Append` and `Prepend`
only, `ToArray()` and `Count(f)` return, and `Count(f)` is the number of elements of
`ToArray()` on which `f` holds plus, when `f` holds on the zero value of `T`, the
number `AllocSize + PrefixAllocSize - Length - PrefixLength` of allocated cells that
were never filled; it is the sequential count when `f` is false on the zero value. -/
theorem C17_Count_built {T : Type} [Inhabited T] (l : Mappedlist T) (f : T → Bool)
    (hl : Built l) :
    ∃ xs, ToArray l = .ok xs ∧
      Count l f = .ok (((xs.countP f : Nat) : Int)
        + (if f default then l.AllocSize + l.PrefixAllocSize - l.Length - l.PrefixLength
          else 0)) ∧
      0 ≤ l.AllocSize + l.PrefixAllocSize - l.Length - l.PrefixLength ∧
      (f default = false → Count l f = .ok ((xs.countP f : Nat) : Int)) := by
  obtain ⟨pm, pk, pl, m, k, len, hr, hc⟩ := hl.rep_clean
  have h1 := hr.pl_le
  have h2 := hr.len_le
  have e := hr.count_clean hc f
  refine ⟨_, hr.toArray, ?_, ?_, ?_⟩
  · rw [e, hr.hA, hr.hPA, hr.hL, hr.hPL]
    congr 1
    split_ifs
    · push_cast; omega
    · push_cast; omega
  · rw [hr.hA, hr.hPA, hr.hL, hr.hPL]; omega
  · intro hf
    rw [e, hf]
    simp

/-- C17 at `MakeFromArray([1, 2, 3])` and the predicate `x % 2 == 0`. -/
theorem C17_Count_built_witness :
    ∃ xs, ToArray (MakeFromArray [1, 2, 3] : Mappedlist Int) = .ok xs ∧
      Count (MakeFromArray [1, 2, 3] : Mappedlist Int) isEven = .ok (((xs.countP isEven : Nat) : Int)
        + (if isEven default then
            (MakeFromArray [1, 2, 3] : Mappedlist Int).AllocSize
              + (MakeFromArray [1, 2, 3] : Mappedlist Int).PrefixAllocSize
              - (MakeFromArray [1, 2, 3] : Mappedlist Int).Length
              - (MakeFromArray [1, 2, 3] : Mappedlist Int).PrefixLength
          else 0)) ∧
      0 ≤ (MakeFromArray [1, 2, 3] : Mappedlist Int).AllocSize
          + (MakeFromArray [1, 2, 3] : Mappedlist Int).PrefixAllocSize
          - (MakeFromArray [1, 2, 3] : Mappedlist Int).Length
          - (MakeFromArray [1, 2, 3] : Mappedlist Int).PrefixLength ∧
      (isEven default = false →
        Count (MakeFromArray [1, 2, 3] : Mappedlist Int) isEven
          = .ok ((xs.countP isEven : Nat) : Int)) :=
  C17_Count_built _ isEven (Built.makeFromArray [1, 2, 3])

/-! ## Count after Map -/

theorem dirCount_map {T : Type} (p : T → Bool) (f : T → T) :
    ∀ d : List (Option (Segment T)),
      dirCount p (d.map (Option.map (mapInner f arraySize))) = dirCount (p ∘ f) d := by
  intro d
  induction d with
  | nil => rfl
  | cons x d ih =>
    rcases x with _ | seg
    · simpa only [List.map_cons, Option.map_none', dirCount] using ih
    · have hseg : countRange (segPred p (mapInner f arraySize seg)) 0 arraySize
          = countRange (segPred (p ∘ f) seg) 0 arraySize := by
        apply countRange_congr
        intro j _
        unfold segPred
        simp only [Nat.zero_add]
        split_ifs
        rw [mapInner_full]; rfl
      simp only [List.map_cons, Option.map_some', dirCount]
      rw [ih, hseg]

/-- C18: on a reachable list, `Count(p)` after `Map(f)` and `Count(p ∘ f)` before
`Map(f)` both return, and they return the same number: the number of the cells of
the allocated segments, filled or not, on which `p ∘ f` holds. -/
theorem C18_Count_after_Map {T : Type} [Inhabited T] (l : Mappedlist T) (p : T → Bool)
    (f : T → T) (hl : Reachable l) :
    Count (Map l f) p = .ok ((dirCount (p ∘ f) l.Data : Nat) : Int) ∧
      Count l (p ∘ f) = .ok ((dirCount (p ∘ f) l.Data : Nat) : Int) ∧
      Count (Map l f) p = Count l (p ∘ f) := by
  obtain ⟨pm, pk, pl, m, k, len, hr⟩ := hl.wf
  have e1 : Count (Map l f) p = .ok ((dirCount (p ∘ f) l.Data : Nat) : Int) := by
    rw [(Map_spec l f hr).1.count p]
    show Except.ok ((dirCount p (l.Data.map (Option.map (mapInner f arraySize))) : Nat) : Int) = _
    rw [dirCount_map]
  have e2 := hr.count (p ∘ f)
  exact ⟨e1, e2, e1.trans e2.symm⟩

/-- C18 at `MakeFromArray([1, 2, 3])`, the predicate `x % 2 == 0` and the function
`x -> x + 1`. -/
theorem C18_Count_after_Map_witness :
    Count (Map (MakeFromArray [1, 2, 3] : Mappedlist Int) (fun x => x + 1)) isEven
        = .ok ((dirCount (isEven ∘ fun x => x + 1)
            (MakeFromArray [1, 2, 3] : Mappedlist Int).Data : Nat) : Int) ∧
      Count (MakeFromArray [1, 2, 3] : Mappedlist Int) (isEven ∘ fun x => x + 1)
        = .ok ((dirCount (isEven ∘ fun x => x + 1)
            (MakeFromArray [1, 2, 3] : Mappedlist Int).Data : Nat) : Int) ∧
      Count (Map (MakeFromArray [1, 2, 3] : Mappedlist Int) (fun x => x + 1)) isEven
        = Count (MakeFromArray [1, 2, 3] : Mappedlist Int) (isEven ∘ fun x => x + 1) :=
  C18_Count_after_Map _ isEven (fun x => x + 1) (Reachable.makeFromArray [1, 2, 3])

/-! ## The growth of the prefix directory -/

/-- C19: after `n` calls of `Prepend` on `Make()`, `MapSize` is still 1, so the
growth `getNextSize(MapSize)` of a reallocation is 1, `PrefixMapSize` is
`ceil(n/arraySize)` and the directory has `1 + ceil(n/arraySize)` slots; the next
`Prepend` reallocates the directory exactly when `n` is a multiple of `arraySize`,
and then adds one slot and copies `n/arraySize + 1` slots, so that the `k`-th
reallocation copies `k` slots. -/
theorem C19_prefix_directory_linear {T : Type} [Inhabited T] (xs : List T) (x : T) :
    ∃ l, run (xs.map Op.prepend) (Make : Mappedlist T) = .ok l ∧
      l.MapSize = 1 ∧ getNextSize l.MapSize = 1 ∧
      l.PrefixMapSize = (((xs.length + arraySize - 1) / arraySize : Nat) : Int) ∧
      l.Data.length = 1 + (xs.length + arraySize - 1) / arraySize ∧
      ((l.PrefixLength = l.PrefixAllocSize ∧ l.PrefixAllocSize = l.PrefixMapSize * arraySize)
        ↔ xs.length % arraySize = 0) ∧
      ∃ l', Prepend l x = .ok l' ∧
        l'.Data.length = l.Data.length + (if xs.length % arraySize = 0 then 1 else 0) ∧
        Op.copies l (Op.prepend x)
          = (if xs.length % arraySize = 0 then xs.length / arraySize + 1 else 0) := by
  obtain ⟨l, c, h1, hr, _, _⟩ := prepends_spec xs (Make : Mappedlist T) 0 Make_rep
  rw [Nat.zero_add] at hr
  obtain ⟨l', pm', h2, hr2, hpm, _⟩ := Prepend_spec l x hr
  have hc := hr.copies_prepend x
  rw [nextSize_one] at hpm
  have e1 : (xs.length + arraySize - 1) / arraySize = (xs.length + 1023) / 1024 := rfl
  have hM : l.MapSize = 1 := by rw [hr.hM]; rfl
  refine ⟨l, h1, hM, by rw [hM]; rfl, by rw [hr.hPM, e1], by rw [hr.data_len, e1]; omega,
    ?_, l', h2, ?_, ?_⟩
  · rw [hr.hPL, hr.hPA, hr.hPM, arraySize_cast, mod_arraySize]
    constructor
    · intro h; omega
    · intro h
      exact ⟨by omega, rfl⟩
  · rw [hr2.data_len, hr.data_len, hpm, mod_arraySize]
    by_cases hn : xs.length % 1024 = 0
    · rw [if_pos hn, if_pos ⟨by omega, rfl⟩]
    · rw [if_neg hn, if_neg (fun hh => hn (by omega))]
  · rw [hc, mod_arraySize, div_arraySize]
    by_cases hn : xs.length % 1024 = 0
    · rw [if_pos hn, if_pos ⟨by omega, rfl⟩]; omega
    · rw [if_neg hn, if_neg (fun hh => hn (by omega))]

/-! ## The zero value of the struct -/

/-- C20: on the zero value of `Mappedlist` (nil directory, every counter 0) `Append`
and `Prepend` panic with an index out of range, the growth `getNextSize(0) = 0`
adding no slot to the empty directory; in every reachable state `MapSize >= 1` and
the growth `getNextSize(MapSize)` of a reallocation is at least 1. -/
theorem C20_zero_value {T : Type} [Inhabited T] (x : T) (l : Mappedlist T)
    (hl : Reachable l) :
    Append (zeroValue : Mappedlist T) x = .error .indexOutOfRange ∧
      Prepend (zeroValue : Mappedlist T) x = .error .indexOutOfRange ∧
      getNextSize (zeroValue : Mappedlist T).MapSize = 0 ∧
      1 ≤ l.MapSize ∧ 1 ≤ getNextSize l.MapSize := by
  refine ⟨rfl, rfl, rfl, ?_⟩
  obtain ⟨pm, pk, pl, m, k, len, hr⟩ := hl.wf
  have := hr.m_pos
  rw [hr.hM, getNextSize_nat]
  constructor
  · omega
  · split_ifs <;> omega

/-- C20 at the value 7 and the reachable list `Make()`. -/
theorem C20_zero_value_witness :
    Append (zeroValue : Mappedlist Int) 7 = .error .indexOutOfRange ∧
      Prepend (zeroValue : Mappedlist Int) 7 = .error .indexOutOfRange ∧
      getNextSize (zeroValue : Mappedlist Int).MapSize = 0 ∧
      1 ≤ (Make : Mappedlist Int).MapSize ∧ 1 ≤ getNextSize (Make : Mappedlist Int).MapSize :=
  C20_zero_value 7 Make Reachable.make

end MappedList
